import Mathlib

/-!
Verification of the jsonc tokenizer / parser / serializer core.

Shallow embedding of the Rust sources:
* `src/utils.rs`   — `is_number_token_char`
* `src/token.rs`   — `Location`, token kinds, lexical errors
* `src/lexer.rs`   — the lexer used by the pipeline (`lib.rs`); its tokens
  carry no location, its errors may carry one
* `src/parser.rs`  — a second lexer iteration whose tokens carry locations
  (embedded as namespace `PLexer`)
* `src/node.rs`    — the value tree `Node` and the serializer `to_json_string`
* `src/lib.rs`     — the whole pipeline

The recursive-descent parser itself (`Parser` in `lib.rs`'s
`crate::parser::Parser`) is not present in the provided sources — only its
caller is — so it is modelled from the spec (section 4.2); see
`Parser.parseF` below.

Characters are Lean `Char` (Unicode scalar values, matching Rust `char`),
text is `List Char`, and the running enumerate index of `chars().enumerate()`
is carried explicitly.  Loops that the Rust code drives with an iterator are
embedded with explicit fuel so that every definition is structurally
recursive and computable by the kernel; fuel-adequacy lemmas below show the
chosen fuel is always sufficient.
-/

namespace Jsonc

/-- Location from `token.rs`: a `(start, end)` offset pair. -/
structure Location where
  start : Nat
  stop : Nat
deriving DecidableEq, Repr

/-- Token kinds shared by both lexer iterations (`token.rs` `TokenKind`;
`lexer.rs` uses exactly this shape for its `Token` with no location). -/
inductive TokenKind where
  | OpenBrace
  | CloseBrace
  | OpenBracket
  | CloseBracket
  | StringValue (s : String)
  | Number (s : String)
  | Boolean (b : Bool)
  | Null
  | CommentLine (s : String)
  | CommentBlock (s : String)
  | Comma
  | Colon
  | WhiteSpaces (n : Int)
  | BreakLine
deriving DecidableEq, Repr

/-- Lexical errors of `token.rs` as used by `lexer.rs`:
`InvalidChars` carries the offending text and a `Location`. -/
inductive LexerError where
  | InvalidChars (s : String) (loc : Location)
  | NotExistTerminalSymbol
  | NotEscapeString
deriving DecidableEq, Repr

/-- From `utils.rs`: `c.is_numeric() | matches!(c, '.' | '-' | 'e' | 'E')`.
Rust `char::is_numeric` tests the Unicode numeric property, which on the
ASCII range is exactly `'0'..='9'`; the embedding models that ASCII subset. -/
def is_number_token_char (c : Char) : Bool :=
  c.isDigit || c = '.' || c = '-' || c = 'e' || c = 'E'

/-- The escape characters accepted after a backslash in `scan_string_token`
(other than `u`). -/
def escChars : List Char := ['"', '\\', '/', 'b', 'f', 'n', 'r', 't']

/-- UTF-8 byte length of a character list, matching Rust `String::len`. -/
def utf8Len (l : List Char) : Nat := (l.map Char.utf8Size).sum

/-- Nonempty run of ASCII digits. -/
def digits1 (l : List Char) : Bool :=
  decide (l ≠ []) && l.all Char.isDigit

/-- Exponent part of the Rust `f64` grammar: empty, or `e`/`E`, an optional
sign, and at least one digit consuming the whole remainder. -/
def expPartOk (l : List Char) : Bool :=
  match l with
  | [] => true
  | c :: rest =>
    if c = 'e' || c = 'E' then
      match rest with
      | '+' :: ds => digits1 ds
      | '-' :: ds => digits1 ds
      | ds => digits1 ds
    else false

/-- Model of Rust `str::parse::<f64>().is_ok()` (`core`'s `dec2flt`
grammar): optional sign, then `inf`/`infinity`/`nan` (case-insensitive) or a
decimal number with optional fraction and exponent. -/
def rustF64ParseOk (l : List Char) : Bool :=
  let body := match l with
    | '+' :: r => r
    | '-' :: r => r
    | r => r
  let low := body.map Char.toLower
  if low = "inf".data || low = "infinity".data || low = "nan".data then true
  else
    let ds1 := body.takeWhile Char.isDigit
    let r1 := body.dropWhile Char.isDigit
    match r1 with
    | '.' :: r2 =>
      let ds2 := r2.takeWhile Char.isDigit
      let r3 := r2.dropWhile Char.isDigit
      (decide (ds1 ≠ []) || decide (ds2 ≠ [])) && expPartOk r3
    | _ => digits1 ds1 && expPartOk r1

namespace Lexer

/-- String scan of `lexer.rs` `scan_string_token`, accumulating into `acc`;
`l` is the input after the opening quote and `i` the source index of its
head.  The `\u` arm takes four characters and keeps them verbatim.  When
fewer than four characters remain the Rust code errors with
`NotExistTerminalSymbol` either at the length check or, one iteration later,
at end of input; the embedding returns that same error directly. -/
def scanStringAux : List Char → List Char → Nat →
    Except LexerError (TokenKind × List Char × Nat)
  | acc, '"' :: rest, i => .ok (.StringValue (String.mk acc), rest, i + 1)
  | acc, '\\' :: 'u' :: h1 :: h2 :: h3 :: h4 :: rest3, i =>
    let hex := [h1, h2, h3, h4]
    if utf8Len hex ≠ 4 && rustF64ParseOk hex then .error .NotExistTerminalSymbol
    else scanStringAux (acc ++ '\\' :: 'u' :: hex) rest3 (i + 6)
  | _, '\\' :: 'u' :: _, _ => .error .NotExistTerminalSymbol
  | acc, '\\' :: c2 :: rest2, i =>
    if c2 ∈ escChars then scanStringAux (acc ++ ['\\', c2]) rest2 (i + 2)
    else .error .NotEscapeString
  | _, ['\\'], _ => .error .NotExistTerminalSymbol
  | acc, c :: rest, i => scanStringAux (acc ++ [c]) rest (i + 1)
  | _, [], _ => .error .NotExistTerminalSymbol

/-- `lexer.rs` `scan_string_token`: scan after the opening quote. -/
def scan_string_token (l : List Char) (i : Nat) :
    Except LexerError (TokenKind × List Char × Nat) :=
  scanStringAux [] l i

/-- Number scan loop of `scan_number_token`: peek, consume while the
character class matches, error when input ends mid-scan. -/
def scanNumberAux : List Char → List Char → Nat →
    Except LexerError (TokenKind × List Char × Nat)
  | _, [], _ => .error .NotExistTerminalSymbol
  | acc, c :: rest, i =>
    if is_number_token_char c then scanNumberAux (acc ++ [c]) rest (i + 1)
    else .ok (.Number (String.mk acc), c :: rest, i)

/-- `lexer.rs` `scan_number_token`: `first` was consumed by the dispatch. -/
def scan_number_token (first : Char) (l : List Char) (i : Nat) :
    Except LexerError (TokenKind × List Char × Nat) :=
  scanNumberAux [first] l i

/-- `lexer.rs` `scan_bool_token`: after `t` take three more characters,
after `f` four; only `true`/`false` are accepted, anything else is
`InvalidChars` with the consumed text and `Location(index, index + 3/4)`. -/
def scan_bool_token (expectBool : Bool) (index : Nat) (l : List Char) :
    Except LexerError (TokenKind × List Char × Nat) :=
  let n := if expectBool then 3 else 4
  let taken := l.take n
  let s := (if expectBool then 't' else 'f') :: taken
  let loc : Location := ⟨index, index + n⟩
  if String.mk s = "true" then .ok (.Boolean true, l.drop n, index + 1 + taken.length)
  else if String.mk s = "false" then .ok (.Boolean false, l.drop n, index + 1 + taken.length)
  else .error (.InvalidChars (String.mk s) loc)

/-- `lexer.rs` `scan_null_token`: after `n` take three more characters and
require `null`. -/
def scan_null_token (index : Nat) (l : List Char) :
    Except LexerError (TokenKind × List Char × Nat) :=
  let taken := l.take 3
  let s := 'n' :: taken
  let loc : Location := ⟨index, index + 3⟩
  if String.mk s = "null" then .ok (.Null, l.drop 3, index + 1 + taken.length)
  else .error (.InvalidChars (String.mk s) loc)

/-- Line-comment loop of `scan_comment_token`: accumulate until the next
line break (left unconsumed) or fail at end of input. -/
def scanLineAux : List Char → List Char → Nat →
    Except LexerError (TokenKind × List Char × Nat)
  | _, [], _ => .error .NotExistTerminalSymbol
  | acc, c :: rest, i =>
    if c = '\n' then .ok (.CommentLine (String.mk acc), c :: rest, i)
    else scanLineAux (acc ++ [c]) rest (i + 1)

/-- Block-comment loop of `scan_comment_token`: `value` is the flushed body,
`buffer` the pending asterisk run, `prev` whether the previous character was
an asterisk. -/
def scanBlockAux : List Char → List Char → Bool → List Char → Nat →
    Except LexerError (TokenKind × List Char × Nat)
  | _, _, _, [], _ => .error .NotExistTerminalSymbol
  | value, buffer, prev, c :: rest, i =>
    if c = '*' then scanBlockAux value (buffer ++ [c]) true rest (i + 1)
    else if c = '/' then
      if prev then .ok (.CommentBlock (String.mk value), rest, i + 1)
      else scanBlockAux value buffer prev rest (i + 1)
    else
      scanBlockAux ((if prev then value ++ buffer else value) ++ [c])
        (if prev then [] else buffer) false rest (i + 1)

/-- `lexer.rs` `scan_comment_token`: the first `/` was consumed at index
`i - 1`; dispatch on the second character. -/
def scan_comment_token (l : List Char) (i : Nat) :
    Except LexerError (TokenKind × List Char × Nat) :=
  match l with
  | [] => .error .NotExistTerminalSymbol
  | c2 :: rest =>
    if c2 = '/' then scanLineAux [] rest (i + 1)
    else if c2 = '*' then scanBlockAux [] [] false rest (i + 1)
    else .error (.InvalidChars (String.mk ['/', c2]) ⟨i, i + 1⟩)

/-- Whitespace loop of `scan_whitespaces`: count consecutive spaces, leave
the terminator unconsumed, fail at end of input. -/
def scanWhitespaceAux : Nat → List Char → Nat →
    Except LexerError (TokenKind × List Char × Nat)
  | _, [], _ => .error .NotExistTerminalSymbol
  | len, c :: rest, i =>
    if c = ' ' then scanWhitespaceAux (len + 1) rest (i + 1)
    else .ok (.WhiteSpaces (Int.ofNat len), c :: rest, i)

/-- `lexer.rs` `scan_whitespaces`: called with one space already consumed. -/
def scan_whitespaces (l : List Char) (i : Nat) :
    Except LexerError (TokenKind × List Char × Nat) :=
  scanWhitespaceAux 1 l i

/-- The `tokenize` loop of `lexer.rs` with explicit fuel; one unit of fuel
per dispatched character, `none` when fuel runs out.  `i` is the source
index of the head of `l`. -/
def tokenizeF : Nat → List Char → Nat → Option (Except LexerError (List TokenKind))
  | 0, _, _ => none
  | _ + 1, [], _ => some (.ok [])
  | f + 1, c :: rest, i =>
    if c = '{' then (tokenizeF f rest (i + 1)).map (·.map (.OpenBrace :: ·))
    else if c = '}' then (tokenizeF f rest (i + 1)).map (·.map (.CloseBrace :: ·))
    else if c = '[' then (tokenizeF f rest (i + 1)).map (·.map (.OpenBracket :: ·))
    else if c = ']' then (tokenizeF f rest (i + 1)).map (·.map (.CloseBracket :: ·))
    else if c = '"' then
      match scan_string_token rest (i + 1) with
      | .error e => some (.error e)
      | .ok (t, rest', i') => (tokenizeF f rest' i').map (·.map (t :: ·))
    else if is_number_token_char c then
      match scan_number_token c rest (i + 1) with
      | .error e => some (.error e)
      | .ok (t, rest', i') => (tokenizeF f rest' i').map (·.map (t :: ·))
    else if c = 't' then
      match scan_bool_token true i rest with
      | .error e => some (.error e)
      | .ok (t, rest', i') => (tokenizeF f rest' i').map (·.map (t :: ·))
    else if c = 'f' then
      match scan_bool_token false i rest with
      | .error e => some (.error e)
      | .ok (t, rest', i') => (tokenizeF f rest' i').map (·.map (t :: ·))
    else if c = 'n' then
      match scan_null_token i rest with
      | .error e => some (.error e)
      | .ok (t, rest', i') => (tokenizeF f rest' i').map (·.map (t :: ·))
    else if c = ':' then (tokenizeF f rest (i + 1)).map (·.map (.Colon :: ·))
    else if c = ',' then (tokenizeF f rest (i + 1)).map (·.map (.Comma :: ·))
    else if c = '/' then
      match scan_comment_token rest (i + 1) with
      | .error e => some (.error e)
      | .ok (t, rest', i') => (tokenizeF f rest' i').map (·.map (t :: ·))
    else if c = ' ' then
      match scan_whitespaces rest (i + 1) with
      | .error e => some (.error e)
      | .ok (t, rest', i') => (tokenizeF f rest' i').map (·.map (t :: ·))
    else if c = '\n' then (tokenizeF f rest (i + 1)).map (·.map (.BreakLine :: ·))
    else tokenizeF f rest (i + 1)

/-- `tokenize` starting at an arbitrary source index; the fuel
`l.length + 1` is always sufficient (`tokenizeF_fuel_sufficient`). -/
def tokenizeFrom (l : List Char) (i : Nat) : Except LexerError (List TokenKind) :=
  match tokenizeF (l.length + 1) l i with
  | some r => r
  | none => .error .NotExistTerminalSymbol

/-- `lexer.rs` `Lexer::tokenize` on a whole input. -/
def tokenize (l : List Char) : Except LexerError (List TokenKind) :=
  tokenizeFrom l 0

/-- The characters `tokenize` turns into a token by themselves: the six
structural characters and the line break. -/
def simpleTokenKind (c : Char) : Option TokenKind :=
  if c = '{' then some .OpenBrace
  else if c = '}' then some .CloseBrace
  else if c = '[' then some .OpenBracket
  else if c = ']' then some .CloseBracket
  else if c = ':' then some .Colon
  else if c = ',' then some .Comma
  else if c = '\n' then some .BreakLine
  else none

end Lexer

/-- Value tree from `node.rs`.  `Object` holds its members as the
association list sorted strictly ascending by key, which is the canonical
representation of Rust's `BTreeMap<String, Node>` (its iteration order);
the parser below only ever builds sorted lists via `Parser.insertMember`. -/
inductive Node where
  | StringValue (s : String)
  | Number (s : String)
  | Boolean (b : Bool)
  | Null
  | Object (members : List (String × Node))
  | Array (items : List Node)
deriving Repr

/-- `Vec::join(",")` from `node.rs` `to_json_string`. -/
def joinComma : List String → String
  | [] => ""
  | [s] => s
  | s :: rest => s ++ "," ++ joinComma rest

/-- Member rendering of `to_json_string`'s `Object` arm: each key is paired
with its already-serialized value as `"key":value`. -/
def zipKeys : List (String × Node) → List String → List String
  | [], _ => []
  | _, [] => []
  | (k, _) :: ms, s :: ss => ("\"" ++ k ++ "\":" ++ s) :: zipKeys ms ss

mutual

/-- `node.rs` `Node::to_json_string`. -/
def Node.to_json_string : Node → String
  | .StringValue value => "\"" ++ value ++ "\""
  | .Number value => value
  | .Boolean value => if value then "true" else "false"
  | .Null => "null"
  | .Array items => "[" ++ joinComma (jsonItems items) ++ "]"
  | .Object members => "\x7b" ++ joinComma (jsonMembers members) ++ "\x7d"

/-- The `items.iter().map(|item| item.to_json_string())` of the `Array`
arm. -/
def jsonItems : List Node → List String
  | [] => []
  | v :: rest => v.to_json_string :: jsonItems rest

/-- The member loop of the `Object` arm: `"key":value` per member, in the
(sorted) iteration order of the map. -/
def jsonMembers : List (String × Node) → List String
  | [] => []
  | (k, v) :: rest => ("\"" ++ k ++ "\":" ++ v.to_json_string) :: jsonMembers rest

end

mutual

/-- Size of a value tree (used as the recursion measure in proofs and as
the call-stack fuel bound for `jsonListF`). -/
def Node.size : Node → Nat
  | .StringValue _ => 1
  | .Number _ => 1
  | .Boolean _ => 1
  | .Null => 1
  | .Array items => sizeItems items + 1
  | .Object members => sizeMembers members + 1

/-- Size of a node list. -/
def sizeItems : List Node → Nat
  | [] => 1
  | v :: rest => v.size + sizeItems rest

/-- Size of a member list. -/
def sizeMembers : List (String × Node) → Nat
  | [] => 1
  | (_, v) :: rest => v.size + sizeMembers rest

end

/-- `Node::to_json_string` with explicit call-stack fuel, on a list of
nodes: the fueled variant used to state that serialization terminates and
never fails on every finite tree (claim about totality); `none` only when
fuel runs out, which `sizeItems` fuel rules out. -/
def jsonListF : Nat → List Node → Option (List String)
  | 0, _ => none
  | _ + 1, [] => some []
  | f + 1, v :: rest =>
    match v with
    | .StringValue s => (jsonListF f rest).map (("\"" ++ s ++ "\"") :: ·)
    | .Number s => (jsonListF f rest).map (s :: ·)
    | .Boolean b => (jsonListF f rest).map ((if b then "true" else "false") :: ·)
    | .Null => (jsonListF f rest).map ("null" :: ·)
    | .Array items =>
      match jsonListF f items, jsonListF f rest with
      | some ss, some rs => some (("[" ++ joinComma ss ++ "]") :: rs)
      | _, _ => none
    | .Object ms =>
      match jsonListF f (ms.map Prod.snd), jsonListF f rest with
      | some ss, some rs => some (("\x7b" ++ joinComma (zipKeys ms ss) ++ "\x7d") :: rs)
      | _, _ => none

/-! ### Second lexer iteration (`parser.rs`), tokens carrying locations -/

/-- `token.rs` `Annotation<TokenKind>` as used by the `parser.rs` lexer:
a token kind with an attached optional location. -/
structure Annotation where
  value : TokenKind
  location : Option Location
deriving DecidableEq, Repr

/-- Lexical errors as constructed by the `parser.rs` lexer through the
`LexerError::invalid_chars(…, Some(loc))` style helpers: the location is
optional. -/
inductive PLexerError where
  | InvalidChars (s : String) (loc : Option Location)
  | NotExistTerminalSymbol
  | NotEscapeString
deriving DecidableEq, Repr

namespace PLexer

/-- String scan of the `parser.rs` lexer: like `Lexer.scanStringAux` but
tracking the scanned length so the closing quote's index yields
`Location(index - length, index)`. -/
def scanStringAux : List Char → Nat → List Char → Nat →
    Except PLexerError ( Annotation × List Char × Nat)
  | acc, len, '"' :: rest, i =>
    .ok (⟨.StringValue (String.mk acc), some ⟨i - len, i⟩⟩, rest, i + 1)
  | acc, len, '\\' :: 'u' :: h1 :: h2 :: h3 :: h4 :: rest3, i =>
    let hex := [h1, h2, h3, h4]
    if utf8Len hex ≠ 4 && rustF64ParseOk hex then .error .NotExistTerminalSymbol
    else scanStringAux (acc ++ '\\' :: 'u' :: hex) (len + 6) rest3 (i + 6)
  | _, _, '\\' :: 'u' :: _, _ => .error .NotExistTerminalSymbol
  | acc, len, '\\' :: c2 :: rest2, i =>
    if c2 ∈ escChars then scanStringAux (acc ++ ['\\', c2]) (len + 2) rest2 (i + 2)
    else .error .NotEscapeString
  | _, _, ['\\'], _ => .error .NotExistTerminalSymbol
  | acc, len, c :: rest, i => scanStringAux (acc ++ [c]) (len + 1) rest (i + 1)
  | _, _, [], _ => .error .NotExistTerminalSymbol

/-- `parser.rs` `scan_string_token`: length starts at 1 for the opening
quote. -/
def scan_string_token (l : List Char) (i : Nat) :
    Except PLexerError ( Annotation × List Char × Nat) :=
  scanStringAux [] 1 l i

/-- Number scan of the `parser.rs` lexer; `times` counts the extra
characters consumed after the first, and the location is computed from the
peeked terminator's index as `Location(index - times, index)`. -/
def scanNumberAux : List Char → Nat → List Char → Nat →
    Except PLexerError ( Annotation × List Char × Nat)
  | _, _, [], _ => .error .NotExistTerminalSymbol
  | acc, times, c :: rest, i =>
    if is_number_token_char c then scanNumberAux (acc ++ [c]) (times + 1) rest (i + 1)
    else .ok (⟨.Number (String.mk acc), some ⟨i - times, i⟩⟩, c :: rest, i)

/-- `parser.rs` `scan_number_token`. -/
def scan_number_token (first : Char) (l : List Char) (i : Nat) :
    Except PLexerError ( Annotation × List Char × Nat) :=
  scanNumberAux [first] 0 l i

/-- `parser.rs` `scan_bool_token`: unlike the `lexer.rs` version, a bad
spelling yields `NotExistTerminalSymbol`, not `InvalidChars`. -/
def scan_bool_token (expectBool : Bool) (index : Nat) (l : List Char) :
    Except PLexerError ( Annotation × List Char × Nat) :=
  let n := if expectBool then 3 else 4
  let taken := l.take n
  let s := (if expectBool then 't' else 'f') :: taken
  let loc : Location := ⟨index, index + n⟩
  if String.mk s = "true" then
    .ok (⟨.Boolean true, some loc⟩, l.drop n, index + 1 + taken.length)
  else if String.mk s = "false" then
    .ok (⟨.Boolean false, some loc⟩, l.drop n, index + 1 + taken.length)
  else .error .NotExistTerminalSymbol

/-- `parser.rs` `scan_null_token`. -/
def scan_null_token (index : Nat) (l : List Char) :
    Except PLexerError ( Annotation × List Char × Nat) :=
  let taken := l.take 3
  let s := 'n' :: taken
  let loc : Location := ⟨index, index + 3⟩
  if String.mk s = "null" then .ok (⟨.Null, some loc⟩, l.drop 3, index + 1 + taken.length)
  else .error (.InvalidChars (String.mk s) (some loc))

/-- Line-comment loop of the `parser.rs` lexer; `start` is the index of the
first `/`. -/
def scanLineAux : Nat → List Char → List Char → Nat →
    Except PLexerError ( Annotation × List Char × Nat)
  | _, _, [], _ => .error .NotExistTerminalSymbol
  | start, acc, c :: rest, i =>
    if c = '\n' then
      .ok (⟨.CommentLine (String.mk acc), some ⟨start, i⟩⟩, c :: rest, i)
    else scanLineAux start (acc ++ [c]) rest (i + 1)

/-- Block-comment loop of the `parser.rs` lexer. -/
def scanBlockAux : Nat → List Char → List Char → Bool → List Char → Nat →
    Except PLexerError ( Annotation × List Char × Nat)
  | _, _, _, _, [], _ => .error .NotExistTerminalSymbol
  | start, value, buffer, prev, c :: rest, i =>
    if c = '*' then scanBlockAux start value (buffer ++ [c]) true rest (i + 1)
    else if c = '/' then
      if prev then
        .ok (⟨.CommentBlock (String.mk value), some ⟨start, i⟩⟩, rest, i + 1)
      else scanBlockAux start value buffer prev rest (i + 1)
    else
      scanBlockAux start ((if prev then value ++ buffer else value) ++ [c])
        (if prev then [] else buffer) false rest (i + 1)

/-- `parser.rs` `scan_comment_token`: the first `/` sits at index `i - 1`. -/
def scan_comment_token (l : List Char) (i : Nat) :
    Except PLexerError ( Annotation × List Char × Nat) :=
  match l with
  | [] => .error .NotExistTerminalSymbol
  | c2 :: rest =>
    if c2 = '/' then scanLineAux (i - 1) [] rest (i + 1)
    else if c2 = '*' then scanBlockAux (i - 1) [] [] false rest (i + 1)
    else .error (.InvalidChars (String.mk ['/', c2]) (some ⟨i, i + 1⟩))

/-- Whitespace loop of the `parser.rs` lexer: the terminator's index gives
`Location(index - length, index - 1)`. -/
def scanWhitespaceAux : Nat → List Char → Nat →
    Except PLexerError ( Annotation × List Char × Nat)
  | _, [], _ => .error .NotExistTerminalSymbol
  | len, c :: rest, i =>
    if c = ' ' then scanWhitespaceAux (len + 1) rest (i + 1)
    else .ok (⟨.WhiteSpaces (Int.ofNat len), some ⟨i - len, i - 1⟩⟩, c :: rest, i)

/-- `parser.rs` `scan_whitespaces`. -/
def scan_whitespaces (l : List Char) (i : Nat) :
    Except PLexerError ( Annotation × List Char × Nat) :=
  scanWhitespaceAux 1 l i

/-- The `tokenize` loop of the `parser.rs` lexer with explicit fuel.
Structural characters produce tokens located at `Location(index, index)`. -/
def tokenizeF : Nat → List Char → Nat → Option (Except PLexerError (List Annotation))
  | 0, _, _ => none
  | _ + 1, [], _ => some (.ok [])
  | f + 1, c :: rest, i =>
    if c = '{' then
      (tokenizeF f rest (i + 1)).map (·.map (⟨.OpenBrace, some ⟨i, i⟩⟩ :: ·))
    else if c = '}' then
      (tokenizeF f rest (i + 1)).map (·.map (⟨.CloseBrace, some ⟨i, i⟩⟩ :: ·))
    else if c = '[' then
      (tokenizeF f rest (i + 1)).map (·.map (⟨.OpenBracket, some ⟨i, i⟩⟩ :: ·))
    else if c = ']' then
      (tokenizeF f rest (i + 1)).map (·.map (⟨.CloseBracket, some ⟨i, i⟩⟩ :: ·))
    else if c = '"' then
      match scan_string_token rest (i + 1) with
      | .error e => some (.error e)
      | .ok (t, rest', i') => (tokenizeF f rest' i').map (·.map (t :: ·))
    else if is_number_token_char c then
      match scan_number_token c rest (i + 1) with
      | .error e => some (.error e)
      | .ok (t, rest', i') => (tokenizeF f rest' i').map (·.map (t :: ·))
    else if c = 't' then
      match scan_bool_token true i rest with
      | .error e => some (.error e)
      | .ok (t, rest', i') => (tokenizeF f rest' i').map (·.map (t :: ·))
    else if c = 'f' then
      match scan_bool_token false i rest with
      | .error e => some (.error e)
      | .ok (t, rest', i') => (tokenizeF f rest' i').map (·.map (t :: ·))
    else if c = 'n' then
      match scan_null_token i rest with
      | .error e => some (.error e)
      | .ok (t, rest', i') => (tokenizeF f rest' i').map (·.map (t :: ·))
    else if c = ':' then
      (tokenizeF f rest (i + 1)).map (·.map (⟨.Colon, some ⟨i, i⟩⟩ :: ·))
    else if c = ',' then
      (tokenizeF f rest (i + 1)).map (·.map (⟨.Comma, some ⟨i, i⟩⟩ :: ·))
    else if c = '/' then
      match scan_comment_token rest (i + 1) with
      | .error e => some (.error e)
      | .ok (t, rest', i') => (tokenizeF f rest' i').map (·.map (t :: ·))
    else if c = ' ' then
      match scan_whitespaces rest (i + 1) with
      | .error e => some (.error e)
      | .ok (t, rest', i') => (tokenizeF f rest' i').map (·.map (t :: ·))
    else if c = '\n' then
      (tokenizeF f rest (i + 1)).map (·.map (⟨.BreakLine, some ⟨i, i⟩⟩ :: ·))
    else tokenizeF f rest (i + 1)

/-- `parser.rs` `Lexer::tokenize` on a whole input. -/
def tokenize (l : List Char) : Except PLexerError (List Annotation) :=
  match tokenizeF (l.length + 1) l 0 with
  | some r => r
  | none => .error .NotExistTerminalSymbol

/-- The six structural characters and their token kinds. -/
def structuralKind (c : Char) : Option TokenKind :=
  if c = '{' then some .OpenBrace
  else if c = '}' then some .CloseBrace
  else if c = '[' then some .OpenBracket
  else if c = ']' then some .CloseBracket
  else if c = ':' then some .Colon
  else if c = ',' then some .Comma
  else none

end PLexer

/-! ### The parser

The `Parser` struct called by `lib.rs` (`crate::parser::Parser`) is not in
the provided sources, so it is modelled from the spec, section 4.2. -/

/-- Syntactic errors, modelled from the spec's error taxonomy (section 7):
`NotFoundToken` for empty input, `UnexpectedToken(reason)` for a token the
grammar forbids, `UnexpectedConsumedUpToken` when the stream ends
mid-production, `UnClosedToken` for an unterminated object/array. -/
inductive ParseError where
  | NotFoundToken
  | UnexpectedToken (reason : String)
  | UnexpectedConsumedUpToken
  | UnClosedToken
deriving DecidableEq, Repr

namespace Parser

/-- The token kinds the grammar cursor skips transparently
(spec section 4.2: whitespace, line breaks, comments). -/
def isTriviaToken : TokenKind → Bool
  | .WhiteSpaces _ => true
  | .BreakLine => true
  | .CommentLine _ => true
  | .CommentBlock _ => true
  | _ => false

/-- Advance the cursor past trivia tokens. -/
def skipTrivia (ts : List TokenKind) : List TokenKind :=
  ts.dropWhile isTriviaToken

/-- Lexicographic order on character lists by Unicode scalar value; on
UTF-8 encoded strings this coincides with Rust's byte-wise `Ord` for
`String`, the order of `BTreeMap<String, _>` iteration. -/
def charListLt : List Char → List Char → Bool
  | [], [] => false
  | [], _ :: _ => true
  | _ :: _, [] => false
  | a :: as1, b :: bs1 =>
    if a < b then true
    else if b < a then false
    else charListLt as1 bs1

/-- Rust `String` order. -/
def strLt (a b : String) : Bool := charListLt a.data b.data

/-- `BTreeMap::insert` on the sorted association list: keeps keys strictly
ascending, last write wins on an equal key. -/
def insertMember : List (String × Node) → String → Node → List (String × Node)
  | [], k, v => [(k, v)]
  | (k0, v0) :: rest, k, v =>
    if strLt k k0 then (k, v) :: (k0, v0) :: rest
    else if k = k0 then (k, v) :: rest
    else (k0, v0) :: insertMember rest k v

/-- The active production of the recursive-descent parser: a value, an
object member loop (with the members read so far and whether none has been
read yet), or an array element loop. -/
inductive PReq where
  | val
  | obj (acc : List (String × Node)) (first : Bool)
  | arr (acc : List Node) (first : Bool)

/-- Modelled from the spec: the recursive-descent parser of
`crate::parser::Parser` (absent from the provided sources), spec
section 4.2, with explicit call fuel (`none` = fuel ran out; fuel
`ts.length + 1` always suffices, proved below).

* `parse_value` maps scalar tokens to `Node` scalars and dispatches
  `OpenBrace`/`OpenBracket` to the object/array loops; a stream end is
  `UnexpectedConsumedUpToken`, any other token `UnexpectedToken`.
* `parse_object`: `CloseBrace` ends the loop; after at least one member a
  `Comma` is required between members, and a `Comma` immediately followed
  by `CloseBrace` tolerates a trailing comma; a member is a `StringValue`
  key, a `Colon`, and a value, inserted with last-write-wins; a leading
  comma or non-string key is `UnexpectedToken`; stream end is
  `UnClosedToken`.
* `parse_array` is structurally symmetric, appending elements in order. -/
def parseF : Nat → PReq → List TokenKind →
    Option (Except ParseError (Node × List TokenKind))
  | 0, _, _ => none
  | f + 1, .val, ts =>
    match skipTrivia ts with
    | [] => some (.error .UnexpectedConsumedUpToken)
    | t :: rest =>
      match t with
      | .StringValue s => some (.ok (.StringValue s, rest))
      | .Number s => some (.ok (.Number s, rest))
      | .Boolean b => some (.ok (.Boolean b, rest))
      | .Null => some (.ok (.Null, rest))
      | .OpenBrace => parseF f (.obj [] true) rest
      | .OpenBracket => parseF f (.arr [] true) rest
      | _ => some (.error (.UnexpectedToken "a token that cannot start a value"))
  | f + 1, .obj acc first, ts =>
    match skipTrivia ts with
    | [] => some (.error .UnClosedToken)
    | .CloseBrace :: rest => some (.ok (.Object acc, rest))
    | t :: rest =>
      if first then
        match t with
        | .StringValue k =>
          match skipTrivia rest with
          | .Colon :: rest2 =>
            match parseF f .val rest2 with
            | none => none
            | some (.error e) => some (.error e)
            | some (.ok (v, rest3)) => parseF f (.obj (insertMember acc k v) false) rest3
          | _ :: _ => some (.error (.UnexpectedToken "expected a colon after a key"))
          | [] => some (.error .UnClosedToken)
        | _ => some (.error (.UnexpectedToken "found a Token that cannot be a key"))
      else
        match t with
        | .Comma =>
          match skipTrivia rest with
          | .CloseBrace :: rest2 => some (.ok (.Object acc, rest2))
          | .StringValue k :: rest2 =>
            match skipTrivia rest2 with
            | .Colon :: rest3 =>
              match parseF f .val rest3 with
              | none => none
              | some (.error e) => some (.error e)
              | some (.ok (v, rest4)) => parseF f (.obj (insertMember acc k v) false) rest4
            | _ :: _ => some (.error (.UnexpectedToken "expected a colon after a key"))
            | [] => some (.error .UnClosedToken)
          | _ :: _ => some (.error (.UnexpectedToken "found a Token that cannot be a key"))
          | [] => some (.error .UnClosedToken)
        | _ => some (.error (.UnexpectedToken "expected a comma or a close brace"))
  | f + 1, .arr acc first, ts =>
    match skipTrivia ts with
    | [] => some (.error .UnClosedToken)
    | .CloseBracket :: rest => some (.ok (.Array acc, rest))
    | t :: rest =>
      if first then
        match t with
        | .StringValue s => parseF f (.arr (acc ++ [.StringValue s]) false) rest
        | .Number s => parseF f (.arr (acc ++ [.Number s]) false) rest
        | .Boolean b => parseF f (.arr (acc ++ [.Boolean b]) false) rest
        | .Null => parseF f (.arr (acc ++ [.Null]) false) rest
        | .OpenBrace =>
          match parseF f (.obj [] true) rest with
          | none => none
          | some (.error e) => some (.error e)
          | some (.ok (v, rest2)) => parseF f (.arr (acc ++ [v]) false) rest2
        | .OpenBracket =>
          match parseF f (.arr [] true) rest with
          | none => none
          | some (.error e) => some (.error e)
          | some (.ok (v, rest2)) => parseF f (.arr (acc ++ [v]) false) rest2
        | _ => some (.error (.UnexpectedToken "a token that cannot start a value"))
      else
        match t with
        | .Comma =>
          match skipTrivia rest with
          | .CloseBracket :: rest2 => some (.ok (.Array acc, rest2))
          | rest2 =>
            match parseF f .val rest2 with
            | none => none
            | some (.error e) => some (.error e)
            | some (.ok (v, rest3)) => parseF f (.arr (acc ++ [v]) false) rest3
        | _ => some (.error (.UnexpectedToken "expected a comma or a close bracket"))

/-- `parse_value` with its always-sufficient fuel. -/
def parseValueFrom (ts : List TokenKind) :
    Option (Except ParseError (Node × List TokenKind)) :=
  parseF (ts.length + 1) .val ts

/-- Modelled from the spec: `Parser::parse` (spec section 4.2): no grammar
token at all is `NotFoundToken`; otherwise parse exactly one value and
require that only trivia remains. -/
def parse (ts : List TokenKind) : Except ParseError Node :=
  match skipTrivia ts with
  | [] => .error .NotFoundToken
  | _ :: _ =>
    match parseF (ts.length + 1) .val ts with
    | none => .error .UnexpectedConsumedUpToken
    | some (.error e) => .error e
    | some (.ok (v, rest)) =>
      match skipTrivia rest with
      | [] => .ok v
      | _ :: _ => .error (.UnexpectedToken "contains multiple values")

end Parser

namespace Lib

/-- `lib.rs` `to_json_string`: tokenize, parse, serialize.  (`lib.rs`
stringifies the error; the embedding keeps the error value itself.) -/
def to_json_string (data : String) : Except (LexerError ⊕ ParseError) String :=
  match Lexer.tokenize data.data with
  | .error e => .error (.inl e)
  | .ok toks =>
    match Parser.parse toks with
    | .error e => .error (.inr e)
    | .ok node => .ok node.to_json_string

end Lib

/-! ### Specification-side vocabulary used by the theorems -/

/-- The language of string-literal bodies the string scanner accepts and
stores verbatim: a sequence of ordinary characters (no quote, no
backslash), recognized two-character escapes, and `\u` groups whose four
following characters pass the scanner's length check. -/
inductive StrUnits : List Char → Prop where
  | nil : StrUnits []
  | ord (c : Char) (rest : List Char) (h1 : c ≠ '"') (h2 : c ≠ '\\')
      (h : StrUnits rest) : StrUnits (c :: rest)
  | esc (c : Char) (rest : List Char) (hc : c ∈ escChars)
      (h : StrUnits rest) : StrUnits ('\\' :: c :: rest)
  | uni (hex rest : List Char) (h4 : hex.length = 4)
      (hok : utf8Len hex = 4 ∨ rustF64ParseOk hex = false)
      (h : StrUnits rest) : StrUnits ('\\' :: 'u' :: hex ++ rest)

/-- Is there an adjacent `*` `/` pair (a block-comment terminator)? -/
def hasStarSlash : List Char → Bool
  | [] => false
  | [_] => false
  | a :: b :: rest => (a = '*' && b = '/') || hasStarSlash (b :: rest)

/-- Drop the trailing run of asterisks. -/
def dropTrailingAsterisks (l : List Char) : List Char :=
  (l.reverse.dropWhile (fun c => c = '*')).reverse

/-- What the block-comment scanner stores for a body region `B` (the
characters strictly between `/*` and the `*` of the first `*/`): every `/`
is dropped, and so is the trailing asterisk run that fuses with the
terminator. -/
def blockBodyText (B : List Char) : List Char :=
  dropTrailingAsterisks (B.filter (fun c => c ≠ '/'))

/-- The body text the block-comment machine contributes while consuming a
region `B` from the state `(buffer, prev)`, with the terminator following:
asterisks buffer up, a buffered run is flushed by an ordinary character,
slashes are dropped (the early-return case `prev = true` is excluded by the
side conditions of the lemmas that use this), and whatever remains buffered
at the terminator is discarded. -/
def bodyFrom : List Char → Bool → List Char → List Char
  | _, _, [] => []
  | buffer, prev, c :: B =>
    if c = '*' then bodyFrom (buffer ++ ['*']) true B
    else if c = '/' then bodyFrom buffer prev B
    else (if prev then buffer else []) ++ c :: bodyFrom (if prev then [] else buffer) false B

/-- The scalar tokens and the value each parses to (spec section 4.2). -/
def scalarNode : TokenKind → Option Node
  | .StringValue s => some (.StringValue s)
  | .Number s => some (.Number s)
  | .Boolean b => some (.Boolean b)
  | .Null => some .Null
  | _ => none

/-- A bare number document (whose compact serialization ends mid-number-scan
at end of input). -/
def isBareNumber : Node → Bool
  | .Number _ => true
  | _ => false

/-- Well-formed value trees: exactly the shapes the parser can build from a
lexed token stream.  String payloads (values and keys) lie in the scanner's
verbatim language, number payloads are nonempty runs of number characters,
object member lists are strictly sorted by key. -/
inductive WfNode : Node → Prop where
  | str (s : String) (h : StrUnits s.data) : WfNode (.StringValue s)
  | num (s : String) (h1 : s.data ≠ []) (h2 : s.data.all is_number_token_char = true) :
      WfNode (.Number s)
  | bool (b : Bool) : WfNode (.Boolean b)
  | null : WfNode .Null
  | obj (members : List (String × Node))
      (hsort : members.Pairwise (fun a b => Parser.strLt a.1 b.1 = true))
      (hkeys : ∀ kv ∈ members, StrUnits kv.1.data)
      (hvals : ∀ kv ∈ members, WfNode kv.2) : WfNode (.Object members)
  | arr (items : List Node) (hvals : ∀ v ∈ items, WfNode v) : WfNode (.Array items)

/-- Guard for number tokens at the end of a serialized chunk: a `Number`
needs a following non-number character to terminate its scan; every other
value is self-delimiting. -/
def numberSepOk : Node → List Char → Prop
  | .Number _, rest => ∃ c rest', rest = c :: rest' ∧ is_number_token_char c = false
  | _, _ => True

namespace Parser

/-- Build a map by inserting the given key/value pairs in order into an
empty `BTreeMap` (the parser's behaviour across an object's members). -/
def insertAll (l : List (String × Node)) : List (String × Node) :=
  l.foldl (fun acc kv => insertMember acc kv.1 kv.2) []

/-- Key lookup in the member list. -/
def lookupMember : List (String × Node) → String → Option Node
  | [], _ => none
  | (k0, v0) :: rest, k => if k = k0 then some v0 else lookupMember rest k

end Parser

/-- Well-formed tokens: the payload invariants the lexer guarantees on the
tokens it emits (used by the re-lexing argument of the idempotence
theorem). -/
def wfToken : TokenKind → Prop
  | .Number s => s.data ≠ [] ∧ s.data.all is_number_token_char = true
  | .StringValue s => StrUnits s.data
  | _ => True

namespace Parser

/-- Invariant carried by the parser's productions: object accumulators are
sorted with well-formed keys and values, array accumulators hold
well-formed values. -/
def reqWf : PReq → Prop
  | .val => True
  | .obj acc _ => acc.Pairwise (fun a b => strLt a.1 b.1 = true) ∧
      (∀ kv ∈ acc, StrUnits kv.1.data) ∧ (∀ kv ∈ acc, WfNode kv.2)
  | .arr acc _ => ∀ x ∈ acc, WfNode x

end Parser

/-- The token kinds that can start a value production. -/
def valueStarter : TokenKind → Bool
  | .StringValue _ => true
  | .Number _ => true
  | .Boolean _ => true
  | .Null => true
  | .OpenBrace => true
  | .OpenBracket => true
  | _ => false

/-- The token run of a serialized value.  The three conjuncts: the run
starts with a value-starting token; lexing the serialization followed by
any continuation text yields the run followed by the continuation's tokens
(a `Number` needs a non-number continuation character to delimit its
scan); parsing the run followed by any continuation tokens, with
sufficient fuel, returns exactly the value and the continuation. -/
def TokSpec (v : Node) (T : List TokenKind) : Prop :=
  (∃ t tail, T = t :: tail ∧ valueStarter t = true) ∧
  (∀ restText i, numberSepOk v restText →
    ∃ i', Lexer.tokenizeFrom (v.to_json_string.data ++ restText) i =
      (Lexer.tokenizeFrom restText i').map (fun ts => T ++ ts)) ∧
  (∀ rts f, T.length + rts.length + 1 ≤ f →
    Parser.parseF f .val (T ++ rts) = some (.ok (v, rts)))

/-- Token run of the elements after the first in an array: a comma before
each element's run. -/
def arrContTokens : List (List TokenKind) → List TokenKind
  | [] => []
  | T :: Ts => .Comma :: T ++ arrContTokens Ts

/-- Token run of all elements of an array. -/
def arrAllTokens : List (List TokenKind) → List TokenKind
  | [] => []
  | T :: Ts => T ++ arrContTokens Ts

/-- Token run of one object member: key, colon, value run. -/
def objMemberTokens (k : String) (T : List TokenKind) : List TokenKind :=
  .StringValue k :: .Colon :: T

/-- Token run of the members after the first in an object. -/
def objContTokens : List (String × List TokenKind) → List TokenKind
  | [] => []
  | (k, T) :: rest => .Comma :: objMemberTokens k T ++ objContTokens rest

/-- Token run of all members of an object. -/
def objAllTokens : List (String × List TokenKind) → List TokenKind
  | [] => []
  | (k, T) :: rest => objMemberTokens k T ++ objContTokens rest

/-! ## Theorems -/

theorem length_dropWhile_le (p : Char → Bool) (l : List Char) :
    (l.dropWhile p).length ≤ l.length := by
  induction l with
  | nil => simp
  | cons c rest ih =>
    rw [List.dropWhile_cons]
    split
    · simp
      omega
    · simp

namespace Lexer

/-- Full characterization of the number-scan loop on an input that contains
a terminator: the token text is the accumulator plus the maximal prefix of
number characters, verbatim, and the terminator is left unconsumed. -/
theorem scanNumberAux_char :
    ∀ (l : List Char) acc i, (∃ x ∈ l, is_number_token_char x = false) →
      scanNumberAux acc l i =
        .ok (.Number (String.mk (acc ++ l.takeWhile is_number_token_char)),
          l.dropWhile is_number_token_char,
          i + (l.takeWhile is_number_token_char).length) := by
  intro l
  induction l with
  | nil => intro acc i h; simp at h
  | cons c rest ih =>
    intro acc i h
    by_cases hc : is_number_token_char c
    · have hrest : ∃ x ∈ rest, is_number_token_char x = false := by
        rcases h with ⟨x, hx, hxf⟩
        rcases List.mem_cons.mp hx with rfl | hx
        · exact absurd hc (by simp [hxf])
        · exact ⟨x, hx, hxf⟩
      rw [scanNumberAux, if_pos hc, ih _ _ hrest]
      simp only [List.takeWhile_cons, List.dropWhile_cons, hc, if_true,
        Except.ok.injEq, Prod.mk.injEq]
      refine ⟨by simp, by simp, by simp; omega⟩
    · simp [scanNumberAux, hc, List.takeWhile_cons, List.dropWhile_cons]

/-- Inversion of a successful number scan. -/
theorem scanNumberAux_ok_inv :
    ∀ (l : List Char) acc i t r i', scanNumberAux acc l i = .ok (t, r, i') →
      t = .Number (String.mk (acc ++ l.takeWhile is_number_token_char)) ∧
      r = l.dropWhile is_number_token_char ∧ r ≠ [] ∧
      is_number_token_char (r.headI) = false := by
  intro l
  induction l with
  | nil => intro acc i t r i' h; simp [scanNumberAux] at h
  | cons c rest ih =>
    intro acc i t r i' h
    by_cases hc : is_number_token_char c
    · rw [scanNumberAux, if_pos hc] at h
      obtain ⟨h1, h2, h3, h4⟩ := ih _ _ _ _ _ h
      refine ⟨?_, ?_, h3, h4⟩
      · simpa [List.takeWhile_cons, hc] using h1
      · simpa [List.dropWhile_cons, hc] using h2
    · rw [scanNumberAux, if_neg hc] at h
      simp only [Except.ok.injEq, Prod.mk.injEq] at h
      obtain ⟨h1, h2, -⟩ := h
      subst h1
      subst h2
      simp [List.takeWhile_cons, List.dropWhile_cons, hc]

theorem scanNumberAux_rest_le :
    ∀ (l acc : List Char) (i : Nat) t r i',
      scanNumberAux acc l i = .ok (t, r, i') → r.length ≤ l.length := by
  intro l acc i t r i' h
  obtain ⟨-, h2, -⟩ := scanNumberAux_ok_inv _ _ _ _ _ _ h
  subst h2
  exact length_dropWhile_le _ _

theorem scanWhitespaceAux_rest_le :
    ∀ (l : List Char) len i t r i',
      scanWhitespaceAux len l i = .ok (t, r, i') → r.length ≤ l.length := by
  intro l
  induction l with
  | nil => intro len i t r i' h; simp [scanWhitespaceAux] at h
  | cons c rest ih =>
    intro len i t r i' h
    rw [scanWhitespaceAux] at h
    split_ifs at h with hc
    · exact le_trans (ih _ _ _ _ _ h) (by simp)
    · simp only [Except.ok.injEq, Prod.mk.injEq] at h
      obtain ⟨-, h2, -⟩ := h
      simp [← h2]

theorem scanLineAux_rest_le :
    ∀ (l acc : List Char) i t r i',
      scanLineAux acc l i = .ok (t, r, i') → r.length ≤ l.length := by
  intro l
  induction l with
  | nil => intro acc i t r i' h; simp [scanLineAux] at h
  | cons c rest ih =>
    intro acc i t r i' h
    rw [scanLineAux] at h
    split_ifs at h with hc
    · simp only [Except.ok.injEq, Prod.mk.injEq] at h
      obtain ⟨-, h2, -⟩ := h
      simp [← h2]
    · exact le_trans (ih _ _ _ _ _ h) (by simp)

theorem scanBlockAux_rest_le :
    ∀ (l value buffer : List Char) prev i t r i',
      scanBlockAux value buffer prev l i = .ok (t, r, i') → r.length ≤ l.length := by
  intro l
  induction l with
  | nil => intro value buffer prev i t r i' h; simp [scanBlockAux] at h
  | cons c rest ih =>
    intro value buffer prev i t r i' h
    rw [scanBlockAux] at h
    split_ifs at h <;>
      first
      | (simp only [Except.ok.injEq, Prod.mk.injEq] at h
         obtain ⟨-, h2, -⟩ := h
         simp [← h2])
      | exact le_trans (ih _ _ _ _ _ _ _ h) (by simp)

theorem scan_comment_token_rest_le :
    ∀ (l : List Char) i t r i',
      scan_comment_token l i = .ok (t, r, i') → r.length ≤ l.length := by
  intro l i t r i' h
  match l, h with
  | c2 :: rest, h =>
    rw [scan_comment_token] at h
    split_ifs at h
    · exact le_trans (scanLineAux_rest_le _ _ _ _ _ _ h) (by simp)
    · exact le_trans (scanBlockAux_rest_le _ _ _ _ _ _ _ _ h) (by simp)

theorem hasStarSlash_cons {c : Char} {B : List Char}
    (h : hasStarSlash (c :: B) = false) :
    hasStarSlash B = false ∧ (c = '*' → ∀ B1, B ≠ '/' :: B1) := by
  match B, h with
  | [], _ => exact ⟨rfl, by intro _ B1 hB; exact List.noConfusion hB⟩
  | b :: B1, h =>
    rw [hasStarSlash] at h
    simp only [Bool.or_eq_false_iff, Bool.and_eq_false_iff] at h
    obtain ⟨h1, h2⟩ := h
    refine ⟨h2, ?_⟩
    intro hc B2 hB
    obtain ⟨rfl, rfl⟩ : b = '/' ∧ B1 = B2 := by
      have := List.cons.injEq b B1 '/' B2 ▸ hB
      exact this
    rcases h1 with h1 | h1
    · exact absurd hc (by simpa using h1)
    · simp at h1

/-- Running the block-comment machine over a region `B` that contains no
`*/` pair, followed by the terminator: it succeeds right after the
terminator and stores the flushed body. -/
theorem scanBlockAux_char :
    ∀ (B value buffer : List Char) prev i rest,
      hasStarSlash B = false →
      (prev = false → buffer = []) →
      (prev = true → ∀ B1, B ≠ '/' :: B1) →
      scanBlockAux value buffer prev (B ++ '*' :: '/' :: rest) i =
        .ok (.CommentBlock (String.mk (value ++ bodyFrom buffer prev B)), rest,
          i + B.length + 2) := by
  intro B
  induction B with
  | nil =>
    intro value buffer prev i rest hss hpf hpt
    rw [List.nil_append, scanBlockAux]
    rw [if_pos rfl, scanBlockAux, if_neg (by decide), if_pos rfl, if_pos rfl]
    simp [bodyFrom]
  | cons c B ih =>
    intro value buffer prev i rest hss hpf hpt
    obtain ⟨hssB, hstarhead⟩ := hasStarSlash_cons hss
    by_cases hstar : c = '*'
    · subst hstar
      rw [List.cons_append, scanBlockAux, if_pos rfl]
      rw [ih value (buffer ++ ['*']) true (i + 1) rest hssB (by simp)
        (fun _ => hstarhead rfl)]
      rw [bodyFrom, if_pos rfl]
      simp only [Except.ok.injEq, Prod.mk.injEq]
      refine ⟨by simp, by simp, by (try simp) <;> omega⟩
    · by_cases hslash : c = '/'
      · subst hslash
        have hprev : prev = false := by
          by_contra hp
          exact hpt (by simpa using hp) B rfl
        subst hprev
        rw [List.cons_append, scanBlockAux, if_neg (by decide), if_pos rfl,
          if_neg (by decide)]
        rw [ih value buffer false (i + 1) rest hssB hpf (by simp)]
        rw [bodyFrom, if_neg (by decide), if_pos rfl]
        simp only [Except.ok.injEq, Prod.mk.injEq]
        refine ⟨by simp, by simp, by (try simp) <;> omega⟩
      · rw [List.cons_append, scanBlockAux, if_neg hstar, if_neg hslash]
        rw [ih ((if prev then value ++ buffer else value) ++ [c])
          (if prev then [] else buffer) false (i + 1) rest hssB
          (fun _ => by split <;> simp_all) (by simp)]
        rw [bodyFrom, if_neg hstar, if_neg hslash]
        simp only [Except.ok.injEq, Prod.mk.injEq]
        refine ⟨?_, by simp, by (try simp) <;> omega⟩
        split <;> simp

theorem scanStringAux_quote (acc rest : List Char) (i : Nat) :
    scanStringAux acc ('"' :: rest) i =
      .ok (.StringValue (String.mk acc), rest, i + 1) :=
  scanStringAux.eq_1 acc i rest

theorem scanStringAux_ord (acc : List Char) {c : Char} (rest : List Char) (i : Nat)
    (h1 : c ≠ '"') (h2 : c ≠ '\\') :
    scanStringAux acc (c :: rest) i = scanStringAux (acc ++ [c]) rest (i + 1) :=
  scanStringAux.eq_6 acc i c rest (fun h => absurd h h1)
    (fun _ _ _ _ _ h _ => absurd h h2) (fun _ h _ => absurd h h2)
    (fun _ _ h _ => absurd h h2) (fun h _ => absurd h h2)

theorem scanStringAux_esc (acc : List Char) {c : Char} (rest : List Char) (i : Nat)
    (hc : c ∈ escChars) :
    scanStringAux acc ('\\' :: c :: rest) i =
      scanStringAux (acc ++ ['\\', c]) rest (i + 2) := by
  have hu : ¬c = 'u' := by
    intro h
    subst h
    simp [escChars] at hc
  rw [scanStringAux.eq_4 acc i c rest (fun _ _ _ _ _ h _ => absurd h hu)
    (fun h => absurd h hu), if_pos hc]

theorem scanStringAux_uni (acc : List Char) {hex : List Char} (rest : List Char)
    (i : Nat) (h4 : hex.length = 4)
    (hok : utf8Len hex = 4 ∨ rustF64ParseOk hex = false) :
    scanStringAux acc ('\\' :: 'u' :: hex ++ rest) i =
      scanStringAux (acc ++ '\\' :: 'u' :: hex) rest (i + 6) := by
  match hex, h4, hok with
  | [a, b, c, d], _, hok =>
    rw [List.cons_append, List.cons_append, List.cons_append, List.cons_append,
      List.cons_append, List.cons_append, List.nil_append]
    rw [scanStringAux.eq_2, if_neg ?_]
    rcases hok with hok | hok
    · simp [hok]
    · simp [hok]

/-- Lexing a verbatim string body: the scanner consumes exactly the body
and the closing quote, storing the body's characters unchanged. -/
theorem scanStringAux_units {s : List Char} (hs : StrUnits s) :
    ∀ acc rest i, scanStringAux acc (s ++ '"' :: rest) i =
      .ok (.StringValue (String.mk (acc ++ s)), rest, i + s.length + 1) := by
  induction hs with
  | nil =>
    intro acc rest i
    rw [List.nil_append, scanStringAux_quote]
    simp
  | ord c rest' h1 h2 h ih =>
    intro acc rest i
    rw [List.cons_append, scanStringAux_ord acc _ _ h1 h2, ih]
    simp only [Except.ok.injEq, Prod.mk.injEq]
    refine ⟨by simp, by simp, by (try simp) <;> omega⟩
  | esc c rest' hc h ih =>
    intro acc rest i
    rw [List.cons_append, List.cons_append, scanStringAux_esc acc _ _ hc, ih]
    simp only [Except.ok.injEq, Prod.mk.injEq]
    refine ⟨by simp, by simp, by (try simp) <;> omega⟩
  | uni hex rest' h4 hok h ih =>
    intro acc rest i
    have heq : ('\\' :: 'u' :: hex ++ rest') ++ '"' :: rest =
        '\\' :: 'u' :: hex ++ (rest' ++ '"' :: rest) := by simp
    rw [heq, scanStringAux_uni acc _ i h4 hok, ih]
    simp only [Except.ok.injEq, Prod.mk.injEq]
    refine ⟨by simp, by simp, ?_⟩
    simp [h4]
    omega

/-- Inversion of a successful string scan: the consumed input splits into a
verbatim body in the scanner's language followed by the closing quote, and
the stored text is exactly that body. -/
theorem scanStringAux_ok_inv :
    ∀ acc l i t r i', scanStringAux acc l i = .ok (t, r, i') →
      ∃ s, l = s ++ '"' :: r ∧ StrUnits s ∧
        t = .StringValue (String.mk (acc ++ s)) := by
  intro acc l i
  induction acc, l, i using scanStringAux.induct with
  | case1 acc rest i =>
    intro t r i' h
    rw [scanStringAux_quote] at h
    simp only [Except.ok.injEq, Prod.mk.injEq] at h
    obtain ⟨h1, h2, -⟩ := h
    exact ⟨[], by simp [← h2], .nil, by simp [← h1]⟩
  | case2 acc a b c d rest3 i hex hcond =>
    intro t r i' h
    rw [scanStringAux.eq_2, if_pos hcond] at h
    exact Except.noConfusion h
  | case3 acc a b c d rest3 i hex hcond ih =>
    intro t r i' h
    rw [scanStringAux.eq_2, if_neg hcond] at h
    obtain ⟨s', hdec, hunits, ht⟩ := ih _ _ _ h
    refine ⟨'\\' :: 'u' :: hex ++ s', by simp [hex, hdec], ?_, by simp [hex, ht]⟩
    refine StrUnits.uni hex s' (by simp [hex]) ?_ hunits
    revert hcond
    simp only [hex]
    intro hcond
    rcases Bool.and_eq_false_iff.mp (Bool.not_eq_true _ ▸ hcond) with hc | hc
    · exact Or.inl (by simpa using hc)
    · exact Or.inr hc
  | case4 acc tail i hshape =>
    intro t r i' h
    match tail, hshape, h with
    | [], _, h => exact Except.noConfusion h
    | [a], _, h => exact Except.noConfusion h
    | [a, b], _, h => exact Except.noConfusion h
    | [a, b, c], _, h => exact Except.noConfusion h
    | a :: b :: c :: d :: r5, hshape, h => exact absurd rfl (fun hh => hshape a b c d r5 hh)
  | case5 acc c2 rest2 i hshape hu hesc ih =>
    intro t r i' h
    rw [scanStringAux_esc _ _ _ hesc] at h
    obtain ⟨s', hdec, hunits, ht⟩ := ih _ _ _ h
    exact ⟨'\\' :: c2 :: s', by simp [hdec], .esc c2 s' hesc hunits, by simp [ht]⟩
  | case6 acc c2 rest2 i hshape hu hesc =>
    intro t r i' h
    rw [scanStringAux.eq_4 acc i c2 rest2 hshape hu, if_neg hesc] at h
    exact Except.noConfusion h
  | case7 acc i =>
    intro t r i' h
    rw [scanStringAux.eq_5] at h
    exact Except.noConfusion h
  | case8 acc c rest i hq hsh1 hsh2 hsh3 hsh4 ih =>
    intro t r i' h
    have hq' : c ≠ '"' := fun hh => hq hh
    have hb' : c ≠ '\\' := by
      intro hh
      match rest, hsh2, hsh3, hsh4 with
      | [], _, _, hsh4 => exact hsh4 hh rfl
      | c2 :: rest2, _, hsh3, _ => exact hsh3 c2 rest2 hh rfl
    rw [scanStringAux_ord _ _ _ hq' hb'] at h
    obtain ⟨s', hdec, hunits, ht⟩ := ih _ _ _ h
    exact ⟨c :: s', by simp [hdec], .ord c s' hq' hb' hunits, by simp [ht]⟩
  | case9 acc i =>
    intro t r i' h
    rw [scanStringAux.eq_7] at h
    exact Except.noConfusion h

theorem scanStringAux_rest_le :
    ∀ (l acc : List Char) i t r i',
      scanStringAux acc l i = .ok (t, r, i') → r.length ≤ l.length := by
  intro l acc i t r i' h
  obtain ⟨s, hdec, -, -⟩ := scanStringAux_ok_inv _ _ _ _ _ _ h
  subst hdec
  simp
  omega

theorem dropWhile_append_cons {p : Char → Bool} {c : Char} (hc : p c = false) :
    ∀ (a b : List Char), (a ++ c :: b).dropWhile p = a.dropWhile p ++ c :: b := by
  intro a
  induction a with
  | nil => intro b; simp [List.dropWhile_cons, hc]
  | cons x a' ih =>
    intro b
    rw [List.cons_append, List.dropWhile_cons, List.dropWhile_cons]
    by_cases hx : p x
    · simp only [hx, if_true]
      exact ih b
    · simp [hx]

theorem dropTrailingAsterisks_append_cons {c : Char} (hc : c ≠ '*')
    (w z : List Char) :
    dropTrailingAsterisks (w ++ c :: z) = w ++ c :: dropTrailingAsterisks z := by
  unfold dropTrailingAsterisks
  rw [List.reverse_append, List.reverse_cons, List.append_assoc,
    List.singleton_append, dropWhile_append_cons (by simp [hc])]
  simp

theorem dropTrailingAsterisks_all_stars {b : List Char}
    (h : ∀ x ∈ b, x = '*') : dropTrailingAsterisks b = [] := by
  unfold dropTrailingAsterisks
  have : b.reverse.dropWhile (fun c => c = '*') = [] := by
    rw [List.dropWhile_eq_nil_iff]
    intro x hx
    simp [h x (List.mem_reverse.mp hx)]
  simp [this]

/-- The flushed body from a clean region, started with an all-asterisk
buffer, is the region's text with slashes removed and the trailing asterisk
run dropped. -/
theorem bodyFrom_spec :
    ∀ (B buffer : List Char) prev,
      hasStarSlash B = false →
      (prev = false → buffer = []) →
      (prev = true → ∀ B1, B ≠ '/' :: B1) →
      (∀ x ∈ buffer, x = '*') →
      bodyFrom buffer prev B =
        dropTrailingAsterisks (buffer ++ B.filter (fun c => c ≠ '/')) := by
  intro B
  induction B with
  | nil =>
    intro buffer prev hss hpf hpt hstars
    simp only [List.filter_nil, List.append_nil, bodyFrom]
    exact (dropTrailingAsterisks_all_stars hstars).symm
  | cons c B ih =>
    intro buffer prev hss hpf hpt hstars
    obtain ⟨hssB, hstarhead⟩ := hasStarSlash_cons hss
    by_cases hstar : c = '*'
    · subst hstar
      rw [bodyFrom, if_pos rfl,
        ih (buffer ++ ['*']) true hssB (by simp) (fun _ => hstarhead rfl)
          (by intro x hx; rcases List.mem_append.mp hx with hx | hx
              · exact hstars x hx
              · simpa using hx)]
      simp [List.filter_cons]
    · by_cases hslash : c = '/'
      · subst hslash
        have hprev : prev = false := by
          by_contra hp
          exact hpt (by simpa using hp) B rfl
        subst hprev
        rw [bodyFrom, if_neg (by decide), if_pos rfl, ih buffer false hssB hpf (by simp) hstars]
        simp [List.filter_cons]
      · rw [bodyFrom, if_neg hstar, if_neg hslash]
        have hfc : (List.filter (fun c => decide (c ≠ '/')) (c :: B)) =
            c :: List.filter (fun c => decide (c ≠ '/')) B := by
          simp [List.filter_cons, hslash]
        rw [hfc, dropTrailingAsterisks_append_cons hstar]
        by_cases hprev : prev = true
        · subst hprev
          simp only [if_true]
          rw [ih [] false hssB (fun _ => rfl) (by simp) (by simp)]
          simp
        · have : prev = false := by simpa using hprev
          subst this
          have hb : buffer = [] := hpf rfl
          subst hb
          simp only [if_false, Bool.false_eq_true]
          rw [ih [] false hssB (fun _ => rfl) (by simp) (by simp)]
          simp

theorem scan_bool_token_rest_le :
    ∀ (l : List Char) b idx t r i',
      scan_bool_token b idx l = .ok (t, r, i') → r.length ≤ l.length := by
  intro l b idx t r i' h
  rw [scan_bool_token] at h
  split_ifs at h <;>
    · simp only [Except.ok.injEq, Prod.mk.injEq] at h
      obtain ⟨-, h2, -⟩ := h
      subst h2
      simp

theorem scan_null_token_rest_le :
    ∀ (l : List Char) idx t r i',
      scan_null_token idx l = .ok (t, r, i') → r.length ≤ l.length := by
  intro l idx t r i' h
  rw [scan_null_token] at h
  split_ifs at h
  simp only [Except.ok.injEq, Prod.mk.injEq] at h
  obtain ⟨-, h2, -⟩ := h
  subst h2
  simp

/-- The tokenize loop never runs out of fuel when given more fuel than
characters (each iteration consumes at least the dispatched character). -/
theorem tokenizeF_ne_none :
    ∀ f l i, l.length < f → tokenizeF f l i ≠ none := by
  intro f l i
  induction f, l, i using tokenizeF.induct <;> intro hlen <;>
    simp_all [tokenizeF] <;>
    first
    | omega
    | (rename_i ih
       rcases htf : tokenizeF _ _ _ with _ | r
       · exact absurd htf (ih (by omega))
       · simp [htf])
    | (rename_i hscan ih
       rcases htf : tokenizeF _ _ _ with _ | r
       · refine absurd htf (ih ?_)
         first
         | (have hle := scanStringAux_rest_le _ _ _ _ _ _ hscan; omega)
         | (have hle := scanNumberAux_rest_le _ _ _ _ _ _ hscan; omega)
         | (have hle := scan_bool_token_rest_le _ _ _ _ _ _ hscan; omega)
         | (have hle := scan_null_token_rest_le _ _ _ _ _ hscan; omega)
         | (have hle := scan_comment_token_rest_le _ _ _ _ _ hscan; omega)
         | (have hle := scanWhitespaceAux_rest_le _ _ _ _ _ _ hscan; omega)
       · simp [htf])
    | (rename_i hscan hx ih
       rcases htf : tokenizeF _ _ _ with _ | r
       · refine absurd htf (ih ?_)
         first
         | (have hle := scanStringAux_rest_le _ _ _ _ _ _ hscan; omega)
         | (have hle := scanNumberAux_rest_le _ _ _ _ _ _ hscan; omega)
         | (have hle := scan_bool_token_rest_le _ _ _ _ _ _ hscan; omega)
         | (have hle := scan_null_token_rest_le _ _ _ _ _ hscan; omega)
         | (have hle := scan_comment_token_rest_le _ _ _ _ _ hscan; omega)
         | (have hle := scanWhitespaceAux_rest_le _ _ _ _ _ _ hscan; omega)
       · simp [htf])

/-- The tokenize result does not depend on the fuel, once sufficient. -/
theorem tokenizeF_irrel :
    ∀ f l i, ∀ g, l.length < f → l.length < g → tokenizeF f l i = tokenizeF g l i := by
  intro f l i
  induction f, l, i using tokenizeF.induct <;> intro g hf hg <;>
    (obtain ⟨g, rfl⟩ : ∃ g', g = g' + 1 := ⟨g - 1, by omega⟩) <;>
    simp_all [tokenizeF] <;>
    first
    | omega
    | (rename_i ih
       first
       | rw [ih g (by omega) (by omega)]
       | rw [ih g (by omega)])
    | (first
       | rename _ = Except.ok _ => hscan
       | rename Except.ok _ = _ => hscan
       rename_i ih
       have hle : _ ≤ _ :=
        (by first
            | exact scanStringAux_rest_le _ _ _ _ _ _ hscan
            | exact scanNumberAux_rest_le _ _ _ _ _ _ hscan
            | exact scan_bool_token_rest_le _ _ _ _ _ _ hscan
            | exact scan_null_token_rest_le _ _ _ _ _ hscan
            | exact scan_comment_token_rest_le _ _ _ _ _ hscan
            | exact scanWhitespaceAux_rest_le _ _ _ _ _ _ hscan
            | exact scanStringAux_rest_le _ _ _ _ _ _ hscan.symm
            | exact scanNumberAux_rest_le _ _ _ _ _ _ hscan.symm
            | exact scan_bool_token_rest_le _ _ _ _ _ _ hscan.symm
            | exact scan_null_token_rest_le _ _ _ _ _ hscan.symm
            | exact scan_comment_token_rest_le _ _ _ _ _ hscan.symm
            | exact scanWhitespaceAux_rest_le _ _ _ _ _ _ hscan.symm)
       first
       | rw [ih g (by omega) (by omega)]
       | rw [ih g (by omega)])

/-- With sufficient fuel, `tokenizeF` computes `tokenizeFrom`. -/
theorem tokenizeF_stable {f : Nat} {l : List Char} {i : Nat} (h : l.length < f) :
    tokenizeF f l i = some (tokenizeFrom l i) := by
  have hir := tokenizeF_irrel f l i (l.length + 1) h (by omega)
  rw [hir, tokenizeFrom]
  rcases htf : tokenizeF (l.length + 1) l i with _ | r
  · exact absurd htf (tokenizeF_ne_none _ _ _ (by omega))
  · rfl

theorem tokenizeFrom_nil (i : Nat) : tokenizeFrom [] i = .ok [] := rfl

/-- One lexing step: a structural character or line break becomes its token
and lexing continues after it. -/
theorem tokenizeFrom_simple {c : Char} {tok : TokenKind}
    (h : simpleTokenKind c = some tok) (rest : List Char) (i : Nat) :
    tokenizeFrom (c :: rest) i = (tokenizeFrom rest (i + 1)).map (tok :: ·) := by
  have hstep : tokenizeFrom (c :: rest) i =
      match tokenizeF (rest.length + 1 + 1) (c :: rest) i with
      | some r => r
      | none => .error .NotExistTerminalSymbol := by
    rw [tokenizeFrom]
    norm_num
  rw [hstep, tokenizeF]
  rw [simpleTokenKind] at h
  split_ifs at h <;> simp_all <;>
    (try rw [tokenizeF_stable (by omega)]) <;>
    first
    | (simp
       done)
    | simp_all [is_number_token_char]

/-- One lexing step: any character without a dispatch rule is silently
dropped. -/
theorem tokenizeFrom_drop {c : Char}
    (h1 : simpleTokenKind c = none) (h2 : c ≠ '"')
    (h3 : is_number_token_char c = false) (h4 : c ≠ 't') (h5 : c ≠ 'f')
    (h6 : c ≠ 'n') (h7 : c ≠ '/') (h8 : c ≠ ' ')
    (rest : List Char) (i : Nat) :
    tokenizeFrom (c :: rest) i = tokenizeFrom rest (i + 1) := by
  rw [simpleTokenKind] at h1
  split_ifs at h1 with hb1 hb2 hb3 hb4 hb5 hb6 hb7
  have hstep : tokenizeFrom (c :: rest) i =
      match tokenizeF (rest.length + 1 + 1) (c :: rest) i with
      | some r => r
      | none => .error .NotExistTerminalSymbol := by
    rw [tokenizeFrom]
    norm_num
  rw [hstep, tokenizeF]
  simp only [hb1, hb2, hb3, hb4, h2, hb5, hb6, h3, h4, h5, h6, h7, h8, hb7,
    if_false, Bool.false_eq_true]
  rw [tokenizeF_stable (by omega)]

/-- One lexing step for a string literal: dispatch on the quote, then the
string scan decides. -/
theorem tokenizeFrom_string (rest : List Char) (i : Nat) :
    tokenizeFrom ('"' :: rest) i =
      match scan_string_token rest (i + 1) with
      | .error e => .error e
      | .ok (t, r, i') => (tokenizeFrom r i').map (t :: ·) := by
  have hstep : tokenizeFrom ('"' :: rest) i =
      match tokenizeF (rest.length + 1 + 1) ('"' :: rest) i with
      | some r => r
      | none => .error .NotExistTerminalSymbol := by
    rw [tokenizeFrom]
    norm_num
  rw [hstep, tokenizeF]
  simp only [if_neg (by decide : ¬('"' : Char) = '{'),
    if_neg (by decide : ¬('"' : Char) = '}'),
    if_neg (by decide : ¬('"' : Char) = '['),
    if_neg (by decide : ¬('"' : Char) = ']'), if_pos rfl]
  rcases hscan : scan_string_token rest (i + 1) with e | ⟨t, r, i'⟩
  · simp [hscan]
  · have hle := scanStringAux_rest_le _ _ _ _ _ _ hscan
    first
    | (simp only [hscan]
       simp only [if_pos trivial]
       rw [tokenizeF_stable (by omega)]
       simp)
    | (dsimp only
       rw [tokenizeF_stable (by omega)]
       simp)
    | (simp only [hscan]
       dsimp only
       rw [tokenizeF_stable (by omega)]
       simp)

/-- One lexing step for a number literal. -/
theorem tokenizeFrom_number {c : Char} (h : is_number_token_char c = true)
    (rest : List Char) (i : Nat) :
    tokenizeFrom (c :: rest) i =
      match scan_number_token c rest (i + 1) with
      | .error e => .error e
      | .ok (t, r, i') => (tokenizeFrom r i').map (t :: ·) := by
  have hstep : tokenizeFrom (c :: rest) i =
      match tokenizeF (rest.length + 1 + 1) (c :: rest) i with
      | some r => r
      | none => .error .NotExistTerminalSymbol := by
    rw [tokenizeFrom]
    norm_num
  have hnot : ∀ c0 : Char, is_number_token_char c0 = false → c ≠ c0 := by
    intro c0 hc0 hcc
    subst hcc
    rw [h] at hc0
    exact Bool.noConfusion hc0
  rw [hstep, tokenizeF]
  rw [if_neg (hnot '{' (by decide)), if_neg (hnot '}' (by decide)),
    if_neg (hnot '[' (by decide)), if_neg (hnot ']' (by decide)),
    if_neg (hnot '"' (by decide)), if_pos h]
  rcases hscan : scan_number_token c rest (i + 1) with e | ⟨t, r, i'⟩
  · simp [hscan]
  · have hle := scanNumberAux_rest_le _ _ _ _ _ _ hscan
    first
    | (simp only [hscan]
       simp only [if_pos trivial]
       rw [tokenizeF_stable (by omega)]
       simp)
    | (dsimp only
       rw [tokenizeF_stable (by omega)]
       simp)
    | (simp only [hscan]
       dsimp only
       rw [tokenizeF_stable (by omega)]
       simp)

/-- One lexing step for a `t` dispatch. -/
theorem tokenizeFrom_t (rest : List Char) (i : Nat) :
    tokenizeFrom ('t' :: rest) i =
      match scan_bool_token true i rest with
      | .error e => .error e
      | .ok (t, r, i') => (tokenizeFrom r i').map (t :: ·) := by
  have hstep : tokenizeFrom ('t' :: rest) i =
      match tokenizeF (rest.length + 1 + 1) ('t' :: rest) i with
      | some r => r
      | none => .error .NotExistTerminalSymbol := by
    rw [tokenizeFrom]
    norm_num
  rw [hstep, tokenizeF]
  rw [if_neg (by decide), if_neg (by decide), if_neg (by decide),
    if_neg (by decide), if_neg (by decide),
    if_neg (show ¬is_number_token_char 't' = true by decide), if_pos rfl]
  rcases hscan : scan_bool_token true i rest with e | ⟨t, r, i'⟩
  · simp [hscan]
  · have hle := scan_bool_token_rest_le _ _ _ _ _ _ hscan
    first
    | (simp only [hscan]
       simp only [if_pos trivial]
       rw [tokenizeF_stable (by omega)]
       simp)
    | (dsimp only
       rw [tokenizeF_stable (by omega)]
       simp)
    | (simp only [hscan]
       dsimp only
       rw [tokenizeF_stable (by omega)]
       simp)

/-- One lexing step for an `f` dispatch. -/
theorem tokenizeFrom_f (rest : List Char) (i : Nat) :
    tokenizeFrom ('f' :: rest) i =
      match scan_bool_token false i rest with
      | .error e => .error e
      | .ok (t, r, i') => (tokenizeFrom r i').map (t :: ·) := by
  have hstep : tokenizeFrom ('f' :: rest) i =
      match tokenizeF (rest.length + 1 + 1) ('f' :: rest) i with
      | some r => r
      | none => .error .NotExistTerminalSymbol := by
    rw [tokenizeFrom]
    norm_num
  rw [hstep, tokenizeF]
  rw [if_neg (by decide), if_neg (by decide), if_neg (by decide),
    if_neg (by decide), if_neg (by decide),
    if_neg (show ¬is_number_token_char 'f' = true by decide),
    if_neg (by decide), if_pos rfl]
  rcases hscan : scan_bool_token false i rest with e | ⟨t, r, i'⟩
  · simp [hscan]
  · have hle := scan_bool_token_rest_le _ _ _ _ _ _ hscan
    first
    | (simp only [hscan]
       simp only [if_pos trivial]
       rw [tokenizeF_stable (by omega)]
       simp)
    | (dsimp only
       rw [tokenizeF_stable (by omega)]
       simp)
    | (simp only [hscan]
       dsimp only
       rw [tokenizeF_stable (by omega)]
       simp)

/-- One lexing step for an `n` dispatch. -/
theorem tokenizeFrom_n (rest : List Char) (i : Nat) :
    tokenizeFrom ('n' :: rest) i =
      match scan_null_token i rest with
      | .error e => .error e
      | .ok (t, r, i') => (tokenizeFrom r i').map (t :: ·) := by
  have hstep : tokenizeFrom ('n' :: rest) i =
      match tokenizeF (rest.length + 1 + 1) ('n' :: rest) i with
      | some r => r
      | none => .error .NotExistTerminalSymbol := by
    rw [tokenizeFrom]
    norm_num
  rw [hstep, tokenizeF]
  rw [if_neg (by decide), if_neg (by decide), if_neg (by decide),
    if_neg (by decide), if_neg (by decide),
    if_neg (show ¬is_number_token_char 'n' = true by decide),
    if_neg (by decide), if_neg (by decide), if_pos rfl]
  rcases hscan : scan_null_token i rest with e | ⟨t, r, i'⟩
  · simp [hscan]
  · have hle := scan_null_token_rest_le _ _ _ _ _ hscan
    first
    | (simp only [hscan]
       simp only [if_pos trivial]
       rw [tokenizeF_stable (by omega)]
       simp)
    | (dsimp only
       rw [tokenizeF_stable (by omega)]
       simp)
    | (simp only [hscan]
       dsimp only
       rw [tokenizeF_stable (by omega)]
       simp)

/-- One lexing step for a `/` dispatch. -/
theorem tokenizeFrom_slash (rest : List Char) (i : Nat) :
    tokenizeFrom ('/' :: rest) i =
      match scan_comment_token rest (i + 1) with
      | .error e => .error e
      | .ok (t, r, i') => (tokenizeFrom r i').map (t :: ·) := by
  have hstep : tokenizeFrom ('/' :: rest) i =
      match tokenizeF (rest.length + 1 + 1) ('/' :: rest) i with
      | some r => r
      | none => .error .NotExistTerminalSymbol := by
    rw [tokenizeFrom]
    norm_num
  rw [hstep, tokenizeF]
  rw [if_neg (by decide), if_neg (by decide), if_neg (by decide),
    if_neg (by decide), if_neg (by decide),
    if_neg (show ¬is_number_token_char '/' = true by decide),
    if_neg (by decide), if_neg (by decide), if_neg (by decide),
    if_neg (by decide), if_neg (by decide), if_pos rfl]
  rcases hscan : scan_comment_token rest (i + 1) with e | ⟨t, r, i'⟩
  · simp [hscan]
  · have hle := scan_comment_token_rest_le _ _ _ _ _ hscan
    first
    | (simp only [hscan]
       simp only [if_pos trivial]
       rw [tokenizeF_stable (by omega)]
       simp)
    | (dsimp only
       rw [tokenizeF_stable (by omega)]
       simp)
    | (simp only [hscan]
       dsimp only
       rw [tokenizeF_stable (by omega)]
       simp)

/-- One lexing step for a space dispatch. -/
theorem tokenizeFrom_space (rest : List Char) (i : Nat) :
    tokenizeFrom (' ' :: rest) i =
      match scan_whitespaces rest (i + 1) with
      | .error e => .error e
      | .ok (t, r, i') => (tokenizeFrom r i').map (t :: ·) := by
  have hstep : tokenizeFrom (' ' :: rest) i =
      match tokenizeF (rest.length + 1 + 1) (' ' :: rest) i with
      | some r => r
      | none => .error .NotExistTerminalSymbol := by
    rw [tokenizeFrom]
    norm_num
  rw [hstep, tokenizeF]
  rw [if_neg (by decide), if_neg (by decide), if_neg (by decide),
    if_neg (by decide), if_neg (by decide),
    if_neg (show ¬is_number_token_char ' ' = true by decide),
    if_neg (by decide), if_neg (by decide), if_neg (by decide),
    if_neg (by decide), if_neg (by decide), if_neg (by decide), if_pos rfl]
  rcases hscan : scan_whitespaces rest (i + 1) with e | ⟨t, r, i'⟩
  · simp [hscan]
  · have hle := scanWhitespaceAux_rest_le _ _ _ _ _ _ hscan
    first
    | (simp only [hscan]
       simp only [if_pos trivial]
       rw [tokenizeF_stable (by omega)]
       simp)
    | (dsimp only
       rw [tokenizeF_stable (by omega)]
       simp)
    | (simp only [hscan]
       dsimp only
       rw [tokenizeF_stable (by omega)]
       simp)

end Lexer

namespace PLexer

/-- One step of the location-carrying lexer of `parser.rs`: a structural
character at offset `i` becomes a token located at `(i, i)`, and lexing
continues at offset `i + 1`. -/
theorem tokenizeF_structural {c : Char} {k : TokenKind}
    (h : structuralKind c = some k) (f : Nat) (rest : List Char) (i : Nat) :
    tokenizeF (f + 1) (c :: rest) i =
      (tokenizeF f rest (i + 1)).map
        (·.map ((⟨k, some ⟨i, i⟩⟩ : Annotation) :: ·)) := by
  rw [structuralKind] at h
  rw [tokenizeF]
  split_ifs at h <;> simp_all <;>
    first
    | (simp
       done)
    | simp_all [is_number_token_char]

end PLexer

namespace Parser

theorem skipTrivia_append {pre : List TokenKind}
    (h : ∀ t ∈ pre, isTriviaToken t = true) (ts : List TokenKind) :
    skipTrivia (pre ++ ts) = skipTrivia ts := by
  induction pre with
  | nil => simp
  | cons t pre ih =>
    rw [List.cons_append, skipTrivia, List.dropWhile_cons,
      if_pos (by simp [h t (by simp)])]
    exact ih (fun t ht => h t (by simp [ht]))

theorem skipTrivia_cons_grammar {t : TokenKind} (h : isTriviaToken t = false)
    (ts : List TokenKind) : skipTrivia (t :: ts) = t :: ts := by
  rw [skipTrivia, List.dropWhile_cons, if_neg (by simp [h])]

theorem skipTrivia_nil_of {ts : List TokenKind}
    (h : ∀ t ∈ ts, isTriviaToken t = true) : skipTrivia ts = [] := by
  rw [skipTrivia, List.dropWhile_eq_nil_iff]
  intro t ht
  simp [h t ht]

end Parser

theorem sizeItems_pos : ∀ l : List Node, 1 ≤ sizeItems l := by
  intro l
  cases l with
  | nil => simp [sizeItems]
  | cons v rest =>
    rw [sizeItems]
    have : 1 ≤ Node.size v := by
      cases v <;> simp [Node.size]
    omega

theorem size_pos : ∀ v : Node, 1 ≤ v.size := by
  intro v
  cases v <;> simp [Node.size]

theorem sizeItems_map_snd :
    ∀ ms : List (String × Node), sizeItems (ms.map Prod.snd) = sizeMembers ms := by
  intro ms
  induction ms with
  | nil => rfl
  | cons kv rest ih =>
    rw [List.map_cons, sizeItems, sizeMembers, ih]

theorem zipKeys_jsonItems :
    ∀ ms : List (String × Node),
      zipKeys ms (jsonItems (ms.map Prod.snd)) = jsonMembers ms := by
  intro ms
  induction ms with
  | nil => rfl
  | cons kv rest ih =>
    rw [List.map_cons, jsonItems, jsonMembers, zipKeys, ih]

/-- With fuel at least the tree size, the fueled serializer computes the
total serializer's result. -/
theorem jsonListF_eq :
    ∀ (n : Nat) (l : List Node) (f : Nat), sizeItems l ≤ n → sizeItems l ≤ f →
      jsonListF f l = some (jsonItems l) := by
  intro n
  induction n using Nat.strong_induction_on with
  | _ n ih =>
    intro l f hn hf
    match f, l with
    | 0, l => exact absurd hf (by have := sizeItems_pos l; omega)
    | f + 1, [] => rfl
    | f + 1, v :: rest =>
      have hv := size_pos v
      have hsz : sizeItems (v :: rest) = v.size + sizeItems rest := rfl
      have hrp := sizeItems_pos rest
      match v with
      | .StringValue s =>
        rw [jsonListF, ih (n - 1) (by simp [Node.size] at hsz; omega) rest f
          (by simp [Node.size] at hsz; omega) (by simp [Node.size] at hsz; omega)]
        rfl
      | .Number s =>
        rw [jsonListF, ih (n - 1) (by simp [Node.size] at hsz; omega) rest f
          (by simp [Node.size] at hsz; omega) (by simp [Node.size] at hsz; omega)]
        rfl
      | .Boolean b =>
        rw [jsonListF, ih (n - 1) (by simp [Node.size] at hsz; omega) rest f
          (by simp [Node.size] at hsz; omega) (by simp [Node.size] at hsz; omega)]
        rfl
      | .Null =>
        rw [jsonListF, ih (n - 1) (by simp [Node.size] at hsz; omega) rest f
          (by simp [Node.size] at hsz; omega) (by simp [Node.size] at hsz; omega)]
        rfl
      | .Array items =>
        have hlen : Node.size (.Array items) = sizeItems items + 1 := rfl
        have hip := sizeItems_pos items
        rw [jsonListF,
          ih (n - 1) (by omega) items f (by omega) (by omega),
          ih (n - 1) (by omega) rest f (by omega) (by omega)]
        rfl
      | .Object ms =>
        have hlen : Node.size (.Object ms) = sizeMembers ms + 1 := rfl
        have hmap := sizeItems_map_snd ms
        have hip := sizeItems_pos (ms.map Prod.snd)
        rw [jsonListF,
          ih (n - 1) (by omega) (ms.map Prod.snd) f (by omega) (by omega),
          ih (n - 1) (by omega) rest f (by omega) (by omega)]
        dsimp only
        rw [zipKeys_jsonItems]
        rfl

namespace Parser

theorem charListLt_irrefl : ∀ a : List Char, charListLt a a = false := by
  intro a
  induction a with
  | nil => rfl
  | cons c rest ih =>
    rw [charListLt, if_neg (lt_irrefl c), if_neg (lt_irrefl c)]
    exact ih

theorem charListLt_trans :
    ∀ a b c : List Char, charListLt a b = true → charListLt b c = true →
      charListLt a c = true := by
  intro a
  induction a with
  | nil =>
    intro b c hab hbc
    match b, c, hab, hbc with
    | b0 :: bs, c0 :: cs, _, _ => rfl
  | cons a0 as1 ih =>
    intro b c hab hbc
    match b, c, hab, hbc with
    | b0 :: bs, c0 :: cs, hab, hbc =>
      rw [charListLt] at hab hbc ⊢
      by_cases h1 : a0 < b0
      · by_cases h2 : b0 < c0
        · rw [if_pos (lt_trans h1 h2)]
        · rw [if_neg h2] at hbc
          by_cases h3 : c0 < b0
          · simp [if_pos h3] at hbc
          · rw [if_neg h3] at hbc
            have : b0 = c0 := le_antisymm (not_lt.mp h3) (not_lt.mp h2)
            subst this
            rw [if_pos h1]
      · rw [if_neg h1] at hab
        by_cases h4 : b0 < a0
        · simp [if_pos h4] at hab
        · rw [if_neg h4] at hab
          have : a0 = b0 := le_antisymm (not_lt.mp h4) (not_lt.mp h1)
          subst this
          by_cases h2 : a0 < c0
          · rw [if_pos h2]
          · rw [if_neg h2] at hbc ⊢
            by_cases h3 : c0 < a0
            · simp [if_pos h3] at hbc
            · rw [if_neg h3] at hbc ⊢
              exact ih bs cs hab hbc

theorem charListLt_connex :
    ∀ a b : List Char, a ≠ b → charListLt a b = true ∨ charListLt b a = true := by
  intro a
  induction a with
  | nil =>
    intro b hne
    match b, hne with
    | b0 :: bs, _ => exact Or.inl rfl
  | cons a0 as1 ih =>
    intro b hne
    match b with
    | [] => exact Or.inr rfl
    | b0 :: bs =>
      rcases lt_trichotomy a0 b0 with h | h | h
      · exact Or.inl (by rw [charListLt, if_pos h])
      · subst h
        have hne2 : as1 ≠ bs := fun hh => hne (by rw [hh])
        rcases ih bs hne2 with h2 | h2
        · exact Or.inl (by rw [charListLt, if_neg (lt_irrefl a0), if_neg (lt_irrefl a0)]; exact h2)
        · exact Or.inr (by rw [charListLt, if_neg (lt_irrefl a0), if_neg (lt_irrefl a0)]; exact h2)
      · exact Or.inr (by rw [charListLt, if_pos h])

theorem strLt_irrefl (a : String) : strLt a a = false := charListLt_irrefl a.data

theorem strLt_trans {a b c : String} (h1 : strLt a b = true) (h2 : strLt b c = true) :
    strLt a c = true := charListLt_trans a.data b.data c.data h1 h2

theorem strLt_connex {a b : String} (h : a ≠ b) :
    strLt a b = true ∨ strLt b a = true :=
  charListLt_connex a.data b.data (fun hh => h (by
    have := congrArg String.mk hh
    simpa using this))

theorem strLt_ne {a b : String} (h : strLt a b = true) : a ≠ b := by
  intro hh
  subst hh
  rw [strLt_irrefl] at h
  exact Bool.noConfusion h

/-- Every member of the inserted list either carries the inserted key or
was already present. -/
theorem mem_insertMember :
    ∀ (l : List (String × Node)) (k : String) (v : Node) (p : String × Node),
      p ∈ insertMember l k v → p.1 = k ∨ p ∈ l := by
  intro l k v
  induction l with
  | nil =>
    intro p hp
    rw [insertMember] at hp
    rcases List.mem_singleton.mp hp with rfl
    exact Or.inl rfl
  | cons kv0 rest ih =>
    intro p hp
    rw [insertMember] at hp
    split_ifs at hp
    · rcases List.mem_cons.mp hp with rfl | hp
      · exact Or.inl rfl
      · exact Or.inr hp
    · rcases List.mem_cons.mp hp with rfl | hp
      · exact Or.inl rfl
      · exact Or.inr (List.mem_cons.mpr (Or.inr hp))
    · rcases List.mem_cons.mp hp with rfl | hp
      · exact Or.inr (List.mem_cons.mpr (Or.inl rfl))
      · rcases ih p hp with h | h
        · exact Or.inl h
        · exact Or.inr (List.mem_cons.mpr (Or.inr h))

/-- `BTreeMap::insert` keeps the member list strictly sorted. -/
theorem insertMember_pairwise :
    ∀ (l : List (String × Node)) (k : String) (v : Node),
      l.Pairwise (fun a b => strLt a.1 b.1 = true) →
      (insertMember l k v).Pairwise (fun a b => strLt a.1 b.1 = true) := by
  intro l k v
  induction l with
  | nil => intro h; simp [insertMember]
  | cons kv0 rest ih =>
    intro h
    obtain ⟨h0, hrest⟩ := List.pairwise_cons.mp h
    rw [insertMember]
    split_ifs with h1 h2
    · refine List.pairwise_cons.mpr ⟨?_, h⟩
      intro p hp
      rcases List.mem_cons.mp hp with rfl | hp
      · exact h1
      · exact strLt_trans h1 (h0 p hp)
    · subst h2
      exact List.pairwise_cons.mpr ⟨h0, hrest⟩
    · refine List.pairwise_cons.mpr ⟨?_, ih hrest⟩
      intro p hp
      rcases mem_insertMember rest k v p hp with hk | hp
      · rw [hk]
        rcases strLt_connex (fun hh : k = kv0.1 => h2 hh) with hc | hc
        · exact absurd hc h1
        · exact hc
      · exact h0 p hp

/-- Inserting any sequence of members into the empty map yields a strictly
sorted member list. -/
theorem insertAll_pairwise (l : List (String × Node)) :
    (insertAll l).Pairwise (fun a b => strLt a.1 b.1 = true) := by
  have haux : ∀ (l : List (String × Node)) (acc : List (String × Node)),
      acc.Pairwise (fun a b => strLt a.1 b.1 = true) →
      (l.foldl (fun acc kv => insertMember acc kv.1 kv.2) acc).Pairwise
        (fun a b => strLt a.1 b.1 = true) := by
    intro l
    induction l with
    | nil => intro acc h; simpa using h
    | cons kv rest ih =>
      intro acc h
      rw [List.foldl_cons]
      exact ih _ (insertMember_pairwise acc kv.1 kv.2 h)
  exact haux l [] (by simp)

theorem lookupMember_none :
    ∀ (l : List (String × Node)) (k : String),
      (∀ p ∈ l, strLt k p.1 = true) → lookupMember l k = none := by
  intro l k
  induction l with
  | nil => intro h; rfl
  | cons kv0 rest ih =>
    intro h
    rw [lookupMember,
      if_neg (strLt_ne (h kv0 (List.mem_cons_self _ _))),
      ih (fun p hp => h p (List.mem_cons.mpr (Or.inr hp)))]

/-- Two strictly sorted member lists with the same lookup function are
equal. -/
theorem sorted_lookup_ext :
    ∀ (l1 l2 : List (String × Node)),
      l1.Pairwise (fun a b => strLt a.1 b.1 = true) →
      l2.Pairwise (fun a b => strLt a.1 b.1 = true) →
      (∀ k, lookupMember l1 k = lookupMember l2 k) → l1 = l2 := by
  intro l1
  induction l1 with
  | nil =>
    intro l2 h1 h2 hl
    match l2 with
    | [] => rfl
    | (k2, v2) :: r2 =>
      have := hl k2
      rw [lookupMember, lookupMember, if_pos rfl] at this
      exact Option.noConfusion this
  | cons kv1 r1 ih =>
    intro l2 h1 h2 hl
    obtain ⟨k1, v1⟩ := kv1
    match l2 with
    | [] =>
      have := hl k1
      rw [lookupMember, lookupMember, if_pos rfl] at this
      exact Option.noConfusion this
    | (k2, v2) :: r2 =>
      obtain ⟨hall1, hr1⟩ := List.pairwise_cons.mp h1
      obtain ⟨hall2, hr2⟩ := List.pairwise_cons.mp h2
      have hkeq : k1 = k2 := by
        by_contra hne
        rcases strLt_connex hne with hc | hc
        · have := hl k1
          rw [lookupMember, if_pos rfl, lookupMember,
            if_neg (strLt_ne hc),
            lookupMember_none r2 k1
              (fun p hp => strLt_trans hc (hall2 p hp))] at this
          exact Option.noConfusion this
        · have := hl k2
          rw [lookupMember, if_neg (strLt_ne hc), lookupMember, if_pos rfl,
            lookupMember_none r1 k2
              (fun p hp => strLt_trans hc (hall1 p hp))] at this
          exact Option.noConfusion this
      subst hkeq
      have hveq : v1 = v2 := by
        have := hl k1
        rw [lookupMember, if_pos rfl, lookupMember, if_pos rfl] at this
        exact Option.some.injEq _ _ ▸ this
      subst hveq
      have htails : ∀ k, lookupMember r1 k = lookupMember r2 k := by
        intro k
        by_cases hk : k = k1
        · subst hk
          rw [lookupMember_none r1 k (fun p hp => hall1 p hp),
            lookupMember_none r2 k (fun p hp => hall2 p hp)]
        · have := hl k
          rw [lookupMember, if_neg hk, lookupMember, if_neg hk] at this
          exact this
      rw [ih r2 hr1 hr2 htails]

end Parser

/-! ### Pipeline idempotence (C8): infrastructure -/

theorem except_map_map (e : Except LexerError (List TokenKind))
    (f g : List TokenKind → List TokenKind) :
    (e.map f).map g = e.map (fun x => g (f x)) := by
  cases e <;> rfl

theorem takeWhile_append_all {p : Char → Bool} :
    ∀ (l m : List Char), (∀ x ∈ l, p x = true) →
      (l ++ m).takeWhile p = l ++ m.takeWhile p := by
  intro l
  induction l with
  | nil => intro m h; simp
  | cons c rest ih =>
    intro m h
    have hc := h c (List.mem_cons_self _ _)
    simp only [List.cons_append, List.takeWhile_cons, hc, if_true]
    rw [ih m (fun x hx => h x (List.mem_cons.mpr (Or.inr hx)))]

theorem dropWhile_append_all {p : Char → Bool} :
    ∀ (l m : List Char), (∀ x ∈ l, p x = true) →
      (l ++ m).dropWhile p = m.dropWhile p := by
  intro l
  induction l with
  | nil => intro m h; simp
  | cons c rest ih =>
    intro m h
    have hc := h c (List.mem_cons_self _ _)
    simp only [List.cons_append, List.dropWhile_cons, hc, if_true]
    exact ih m (fun x hx => h x (List.mem_cons.mpr (Or.inr hx)))

namespace Lexer

theorem scan_bool_token_ok_shape {eb : Bool} {i : Nat} {l : List Char}
    {t : TokenKind} {r : List Char} {i' : Nat}
    (h : scan_bool_token eb i l = .ok (t, r, i')) : ∃ b, t = .Boolean b := by
  simp only [scan_bool_token] at h
  split_ifs at h <;>
    first
      | (injection h with h
         exact ⟨_, (congrArg Prod.fst h).symm⟩)
      | simp at h

theorem scan_null_token_ok_shape {i : Nat} {l : List Char}
    {t : TokenKind} {r : List Char} {i' : Nat}
    (h : scan_null_token i l = .ok (t, r, i')) : t = .Null := by
  simp only [scan_null_token] at h
  split_ifs at h
  · injection h with h
    exact (congrArg Prod.fst h).symm

theorem scanLineAux_ok_shape :
    ∀ (l acc : List Char) (i : Nat) t r i',
      scanLineAux acc l i = .ok (t, r, i') → ∃ s, t = .CommentLine s := by
  intro l
  induction l with
  | nil => intro acc i t r i' h; simp [scanLineAux] at h
  | cons c rest ih =>
    intro acc i t r i' h
    rw [scanLineAux] at h
    split_ifs at h with hc
    · injection h with h
      exact ⟨String.mk acc, (congrArg Prod.fst h).symm⟩
    · exact ih _ _ _ _ _ h

theorem scanBlockAux_ok_shape :
    ∀ (l value buffer : List Char) (prev : Bool) (i : Nat) t r i',
      scanBlockAux value buffer prev l i = .ok (t, r, i') →
      ∃ s, t = .CommentBlock s := by
  intro l
  induction l with
  | nil => intro value buffer prev i t r i' h; simp [scanBlockAux] at h
  | cons c rest ih =>
    intro value buffer prev i t r i' h
    rw [scanBlockAux] at h
    split_ifs at h <;>
      first
        | (injection h with h
           exact ⟨_, (congrArg Prod.fst h).symm⟩)
        | exact ih _ _ _ _ _ _ _ h

theorem scan_comment_token_ok_shape {l : List Char} {i : Nat}
    {t : TokenKind} {r : List Char} {i' : Nat}
    (h : scan_comment_token l i = .ok (t, r, i')) :
    (∃ s, t = .CommentLine s) ∨ ∃ s, t = .CommentBlock s := by
  match l with
  | [] => simp [scan_comment_token] at h
  | c2 :: rest =>
    rw [scan_comment_token] at h
    split_ifs at h with h1 h2
    · exact Or.inl (scanLineAux_ok_shape _ _ _ _ _ _ h)
    · exact Or.inr (scanBlockAux_ok_shape _ _ _ _ _ _ _ _ h)

theorem scanWhitespaceAux_ok_shape :
    ∀ (l : List Char) (len i : Nat) t r i',
      scanWhitespaceAux len l i = .ok (t, r, i') → ∃ m, t = .WhiteSpaces m := by
  intro l
  induction l with
  | nil => intro len i t r i' h; simp [scanWhitespaceAux] at h
  | cons c rest ih =>
    intro len i t r i' h
    rw [scanWhitespaceAux] at h
    split_ifs at h with hc
    · exact ih _ _ _ _ _ h
    · injection h with h
      exact ⟨Int.ofNat len, (congrArg Prod.fst h).symm⟩

theorem wfToken_simple {c : Char} {tok : TokenKind}
    (h : simpleTokenKind c = some tok) : wfToken tok := by
  rw [simpleTokenKind] at h
  split_ifs at h <;> (injection h with h; subst h; trivial)

/-- Every token the lexer emits satisfies the payload invariants. -/
theorem tokenizeFrom_wf :
    ∀ (n : Nat) (l : List Char) (i : Nat) (toks : List TokenKind),
      l.length ≤ n → tokenizeFrom l i = .ok toks → ∀ tk ∈ toks, wfToken tk := by
  intro n
  induction n using Nat.strong_induction_on with
  | _ n ih =>
    intro l i toks hn h tk htk
    match l with
    | [] =>
      rw [tokenizeFrom_nil] at h
      injection h with h
      subst h
      simp at htk
    | c :: rest =>
      have hlt : rest.length < n := by
        simp only [List.length_cons] at hn
        omega
      rcases hsk : simpleTokenKind c with _ | tok
      · by_cases hq : c = '"'
        · subst hq
          rw [tokenizeFrom_string] at h
          rcases hscan : scan_string_token rest (i + 1) with e | ⟨t, r, i2⟩ <;>
            simp only [hscan] at h
          · exact Except.noConfusion h
          · rcases hr : tokenizeFrom r i2 with e | ts <;>
              simp only [hr, Except.map] at h
            · exact Except.noConfusion h
            · injection h with h
              subst h
              rcases List.mem_cons.mp htk with rfl | htk2
              · obtain ⟨s, hsplit, hunits, hts⟩ := scanStringAux_ok_inv _ _ _ _ _ _ hscan
                subst hts
                simpa [wfToken] using hunits
              · have hrle := scanStringAux_rest_le _ _ _ _ _ _ hscan
                exact ih rest.length hlt r i2 ts (by omega) hr tk htk2
        · by_cases hnum : is_number_token_char c = true
          · rw [tokenizeFrom_number hnum] at h
            rcases hscan : scan_number_token c rest (i + 1) with e | ⟨t, r, i2⟩ <;>
              simp only [hscan] at h
            · exact Except.noConfusion h
            · rcases hr : tokenizeFrom r i2 with e | ts <;>
                simp only [hr, Except.map] at h
              · exact Except.noConfusion h
              · injection h with h
                subst h
                rcases List.mem_cons.mp htk with rfl | htk2
                · obtain ⟨ht, -, -, -⟩ := scanNumberAux_ok_inv _ _ _ _ _ _ hscan
                  subst ht
                  simp only [wfToken]
                  refine ⟨by simp, ?_⟩
                  simp only [List.all_eq_true]
                  intro x hx
                  have hx2 : x = c ∨ x ∈ List.takeWhile is_number_token_char rest := by
                    simpa using hx
                  rcases hx2 with rfl | hx2
                  · exact hnum
                  · exact List.mem_takeWhile_imp hx2
                · have hrle := scanNumberAux_rest_le _ _ _ _ _ _ hscan
                  exact ih rest.length hlt r i2 ts (by omega) hr tk htk2
          · by_cases hct : c = 't'
            · subst hct
              rw [tokenizeFrom_t] at h
              rcases hscan : scan_bool_token true i rest with e | ⟨t, r, i2⟩ <;>
                simp only [hscan] at h
              · exact Except.noConfusion h
              · rcases hr : tokenizeFrom r i2 with e | ts <;>
                  simp only [hr, Except.map] at h
                · exact Except.noConfusion h
                · injection h with h
                  subst h
                  rcases List.mem_cons.mp htk with rfl | htk2
                  · obtain ⟨b, hb⟩ := scan_bool_token_ok_shape hscan
                    subst hb
                    trivial
                  · have hrle := scan_bool_token_rest_le _ _ _ _ _ _ hscan
                    exact ih rest.length hlt r i2 ts (by omega) hr tk htk2
            · by_cases hcf : c = 'f'
              · subst hcf
                rw [tokenizeFrom_f] at h
                rcases hscan : scan_bool_token false i rest with e | ⟨t, r, i2⟩ <;>
                  simp only [hscan] at h
                · exact Except.noConfusion h
                · rcases hr : tokenizeFrom r i2 with e | ts <;>
                    simp only [hr, Except.map] at h
                  · exact Except.noConfusion h
                  · injection h with h
                    subst h
                    rcases List.mem_cons.mp htk with rfl | htk2
                    · obtain ⟨b, hb⟩ := scan_bool_token_ok_shape hscan
                      subst hb
                      trivial
                    · have hrle := scan_bool_token_rest_le _ _ _ _ _ _ hscan
                      exact ih rest.length hlt r i2 ts (by omega) hr tk htk2
              · by_cases hcn : c = 'n'
                · subst hcn
                  rw [tokenizeFrom_n] at h
                  rcases hscan : scan_null_token i rest with e | ⟨t, r, i2⟩ <;>
                    simp only [hscan] at h
                  · exact Except.noConfusion h
                  · rcases hr : tokenizeFrom r i2 with e | ts <;>
                      simp only [hr, Except.map] at h
                    · exact Except.noConfusion h
                    · injection h with h
                      subst h
                      rcases List.mem_cons.mp htk with rfl | htk2
                      · rw [scan_null_token_ok_shape hscan]
                        trivial
                      · have hrle := scan_null_token_rest_le _ _ _ _ _ hscan
                        exact ih rest.length hlt r i2 ts (by omega) hr tk htk2
                · by_cases hcs : c = '/'
                  · subst hcs
                    rw [tokenizeFrom_slash] at h
                    rcases hscan : scan_comment_token rest (i + 1) with e | ⟨t, r, i2⟩ <;>
                      simp only [hscan] at h
                    · exact Except.noConfusion h
                    · rcases hr : tokenizeFrom r i2 with e | ts <;>
                        simp only [hr, Except.map] at h
                      · exact Except.noConfusion h
                      · injection h with h
                        subst h
                        rcases List.mem_cons.mp htk with rfl | htk2
                        · rcases scan_comment_token_ok_shape hscan with ⟨s, hs⟩ | ⟨s, hs⟩ <;>
                            (subst hs; trivial)
                        · have hrle := scan_comment_token_rest_le _ _ _ _ _ hscan
                          exact ih rest.length hlt r i2 ts (by omega) hr tk htk2
                  · by_cases hsp : c = ' '
                    · subst hsp
                      rw [tokenizeFrom_space] at h
                      rcases hscan : scan_whitespaces rest (i + 1) with e | ⟨t, r, i2⟩ <;>
                        simp only [hscan] at h
                      · exact Except.noConfusion h
                      · rcases hr : tokenizeFrom r i2 with e | ts <;>
                          simp only [hr, Except.map] at h
                        · exact Except.noConfusion h
                        · injection h with h
                          subst h
                          rcases List.mem_cons.mp htk with rfl | htk2
                          · obtain ⟨m, hm⟩ := scanWhitespaceAux_ok_shape _ _ _ _ _ _ hscan
                            subst hm
                            trivial
                          · have hrle := scanWhitespaceAux_rest_le _ _ _ _ _ _ hscan
                            exact ih rest.length hlt r i2 ts (by omega) hr tk htk2
                    · rw [tokenizeFrom_drop hsk hq (by simpa using hnum)
                        hct hcf hcn hcs hsp] at h
                      exact ih rest.length hlt rest (i + 1) toks le_rfl h tk htk
      · rw [tokenizeFrom_simple hsk] at h
        rcases hr : tokenizeFrom rest (i + 1) with e | ts <;>
          simp only [hr, Except.map] at h
        · exact Except.noConfusion h
        · injection h with h
          subst h
          rcases List.mem_cons.mp htk with rfl | htk2
          · exact wfToken_simple hsk
          · exact ih rest.length hlt rest (i + 1) ts le_rfl hr tk htk2

end Lexer

namespace Parser

theorem mem_skipTrivia :
    ∀ {l : List TokenKind} {a : TokenKind}, a ∈ skipTrivia l → a ∈ l := by
  intro l
  induction l with
  | nil => intro a h; simpa [skipTrivia] using h
  | cons t rest ih =>
    intro a h
    rw [skipTrivia, List.dropWhile_cons] at h
    split_ifs at h with ht
    · exact List.mem_cons.mpr (Or.inr (ih h))
    · exact h

/-- Membership in an inserted map: the new pair itself or an old member. -/
theorem mem_insertMember_eq :
    ∀ (l : List (String × Node)) (k : String) (v : Node) (p : String × Node),
      p ∈ insertMember l k v → p = (k, v) ∨ p ∈ l := by
  intro l k v
  induction l with
  | nil =>
    intro p hp
    rw [insertMember] at hp
    exact Or.inl (List.mem_singleton.mp hp)
  | cons kv0 rest ih =>
    intro p hp
    rw [insertMember] at hp
    split_ifs at hp
    · rcases List.mem_cons.mp hp with rfl | hp
      · exact Or.inl rfl
      · exact Or.inr hp
    · rcases List.mem_cons.mp hp with rfl | hp
      · exact Or.inl rfl
      · exact Or.inr (List.mem_cons.mpr (Or.inr hp))
    · rcases List.mem_cons.mp hp with rfl | hp
      · exact Or.inr (List.mem_cons.mpr (Or.inl rfl))
      · rcases ih p hp with h | h
        · exact Or.inl h
        · exact Or.inr (List.mem_cons.mpr (Or.inr h))

/-- Values built by the parser from well-formed tokens are well-formed:
string and number payloads keep the lexer's invariants and object member
lists stay strictly sorted. -/
theorem parseF_wf :
    ∀ (f : Nat) (req : PReq) (ts : List TokenKind) (v : Node) (rest : List TokenKind),
      parseF f req ts = some (.ok (v, rest)) →
      (∀ tk ∈ ts, wfToken tk) → reqWf req →
      WfNode v ∧ ∀ tk ∈ rest, wfToken tk := by
  intro f
  induction f with
  | zero =>
    intro req ts v rest h hts hreq
    exact absurd h (by simp [parseF])
  | succ f ih =>
    intro req ts v rest h hts hreq
    have hts' : ∀ tk ∈ skipTrivia ts, wfToken tk :=
      fun tk htk => hts tk (mem_skipTrivia htk)
    cases req with
    | val =>
      rcases hst : skipTrivia ts with _ | ⟨t, rest0⟩
      · rw [parseF, hst] at h
        simp at h
      · have htwf : wfToken t := hts' t (by rw [hst]; exact List.mem_cons_self _ _)
        have hrest0 : ∀ tk ∈ rest0, wfToken tk :=
          fun tk htk => hts' tk (by rw [hst]; exact List.mem_cons.mpr (Or.inr htk))
        rw [parseF, hst] at h
        cases t
        case StringValue s =>
          simp only [Option.some.injEq, Except.ok.injEq, Prod.mk.injEq] at h
          obtain ⟨h1, h2⟩ := h
          subst h1
          subst h2
          exact ⟨WfNode.str s (by simpa [wfToken] using htwf), hrest0⟩
        case Number s =>
          simp only [Option.some.injEq, Except.ok.injEq, Prod.mk.injEq] at h
          obtain ⟨h1, h2⟩ := h
          subst h1
          subst h2
          have hn : s.data ≠ [] ∧ s.data.all is_number_token_char = true := by
            simpa [wfToken] using htwf
          exact ⟨WfNode.num s hn.1 hn.2, hrest0⟩
        case Boolean b =>
          simp only [Option.some.injEq, Except.ok.injEq, Prod.mk.injEq] at h
          obtain ⟨h1, h2⟩ := h
          subst h1
          subst h2
          exact ⟨WfNode.bool b, hrest0⟩
        case Null =>
          simp only [Option.some.injEq, Except.ok.injEq, Prod.mk.injEq] at h
          obtain ⟨h1, h2⟩ := h
          subst h1
          subst h2
          exact ⟨WfNode.null, hrest0⟩
        case OpenBrace =>
          exact ih _ _ _ _ h hrest0 ⟨List.Pairwise.nil, by simp, by simp⟩
        case OpenBracket =>
          exact ih _ _ _ _ h hrest0 (by simp [reqWf])
        all_goals simp at h
    | obj acc fst =>
      obtain ⟨hsort, hkeys, hvals⟩ := hreq
      rcases hst : skipTrivia ts with _ | ⟨t, rest0⟩
      · rw [parseF, hst] at h
        simp at h
      · have htwf : wfToken t := hts' t (by rw [hst]; exact List.mem_cons_self _ _)
        have hrest0 : ∀ tk ∈ rest0, wfToken tk :=
          fun tk htk => hts' tk (by rw [hst]; exact List.mem_cons.mpr (Or.inr htk))
        rw [parseF, hst] at h
        cases t
        case CloseBrace =>
          simp only [Option.some.injEq, Except.ok.injEq, Prod.mk.injEq] at h
          obtain ⟨h1, h2⟩ := h
          subst h1
          subst h2
          exact ⟨WfNode.obj acc hsort hkeys hvals, hrest0⟩
        case StringValue k =>
          cases fst
          case false => simp at h
          case true =>
            dsimp only at h
            rw [if_pos rfl] at h
            rcases hst2 : skipTrivia rest0 with _ | ⟨t2, rest2⟩ <;> rw [hst2] at h
            · simp at h
            · cases t2
              case Colon =>
                dsimp only at h
                have hrest2 : ∀ tk ∈ rest2, wfToken tk := fun tk htk =>
                  hrest0 tk (mem_skipTrivia
                    (by rw [hst2]; exact List.mem_cons.mpr (Or.inr htk)))
                rcases hv : parseF f .val rest2 with _ | (er | ⟨v0, rest3⟩) <;>
                  rw [hv] at h
                · simp at h
                · simp at h
                · obtain ⟨hv0, hrest3⟩ := ih _ _ _ _ hv hrest2 trivial
                  have hkeys2 : ∀ kv ∈ insertMember acc k v0, StrUnits kv.1.data := by
                    intro kv hkv
                    rcases mem_insertMember_eq acc k v0 kv hkv with rfl | hkv2
                    · simpa [wfToken] using htwf
                    · exact hkeys kv hkv2
                  have hvals2 : ∀ kv ∈ insertMember acc k v0, WfNode kv.2 := by
                    intro kv hkv
                    rcases mem_insertMember_eq acc k v0 kv hkv with rfl | hkv2
                    · exact hv0
                    · exact hvals kv hkv2
                  exact ih _ _ _ _ h hrest3
                    ⟨insertMember_pairwise acc k v0 hsort, hkeys2, hvals2⟩
              all_goals simp at h
        case Comma =>
          cases fst
          case true => simp at h
          case false =>
            dsimp only at h
            rw [if_neg (by simp)] at h
            rcases hst2 : skipTrivia rest0 with _ | ⟨t2, rest2⟩ <;> rw [hst2] at h
            · simp at h
            · cases t2
              case CloseBrace =>
                simp only [Option.some.injEq, Except.ok.injEq, Prod.mk.injEq] at h
                obtain ⟨h1, h2⟩ := h
                subst h1
                subst h2
                refine ⟨WfNode.obj acc hsort hkeys hvals, ?_⟩
                intro tk htk
                exact hrest0 tk (mem_skipTrivia
                  (by rw [hst2]; exact List.mem_cons.mpr (Or.inr htk)))
              case StringValue k =>
                dsimp only at h
                have htwf2 : wfToken (.StringValue k) :=
                  hrest0 _ (mem_skipTrivia (by rw [hst2]; exact List.mem_cons_self _ _))
                have hrest2 : ∀ tk ∈ rest2, wfToken tk := fun tk htk =>
                  hrest0 tk (mem_skipTrivia
                    (by rw [hst2]; exact List.mem_cons.mpr (Or.inr htk)))
                rcases hst3 : skipTrivia rest2 with _ | ⟨t3, rest3⟩ <;> rw [hst3] at h
                · simp at h
                · cases t3
                  case Colon =>
                    dsimp only at h
                    have hrest3 : ∀ tk ∈ rest3, wfToken tk := fun tk htk =>
                      hrest2 tk (mem_skipTrivia
                        (by rw [hst3]; exact List.mem_cons.mpr (Or.inr htk)))
                    rcases hv : parseF f .val rest3 with _ | (er | ⟨v0, rest4⟩) <;>
                      rw [hv] at h
                    · simp at h
                    · simp at h
                    · obtain ⟨hv0, hrest4⟩ := ih _ _ _ _ hv hrest3 trivial
                      have hkeys2 : ∀ kv ∈ insertMember acc k v0, StrUnits kv.1.data := by
                        intro kv hkv
                        rcases mem_insertMember_eq acc k v0 kv hkv with rfl | hkv2
                        · simpa [wfToken] using htwf2
                        · exact hkeys kv hkv2
                      have hvals2 : ∀ kv ∈ insertMember acc k v0, WfNode kv.2 := by
                        intro kv hkv
                        rcases mem_insertMember_eq acc k v0 kv hkv with rfl | hkv2
                        · exact hv0
                        · exact hvals kv hkv2
                      exact ih _ _ _ _ h hrest4
                        ⟨insertMember_pairwise acc k v0 hsort, hkeys2, hvals2⟩
                  all_goals simp at h
              all_goals simp at h
        all_goals (cases fst <;> simp at h)
    | arr acc fst =>
      rcases hst : skipTrivia ts with _ | ⟨t, rest0⟩
      · rw [parseF, hst] at h
        simp at h
      · have htwf : wfToken t := hts' t (by rw [hst]; exact List.mem_cons_self _ _)
        have hrest0 : ∀ tk ∈ rest0, wfToken tk :=
          fun tk htk => hts' tk (by rw [hst]; exact List.mem_cons.mpr (Or.inr htk))
        rw [parseF, hst] at h
        cases t
        case CloseBracket =>
          simp only [Option.some.injEq, Except.ok.injEq, Prod.mk.injEq] at h
          obtain ⟨h1, h2⟩ := h
          subst h1
          subst h2
          exact ⟨WfNode.arr acc hreq, hrest0⟩
        case StringValue s =>
          cases fst
          case false => simp at h
          case true =>
            dsimp only at h
            rw [if_pos rfl] at h
            refine ih _ _ _ _ h hrest0 ?_
            intro x hx
            rcases List.mem_append.mp hx with hx2 | hx2
            · exact hreq x hx2
            · rcases List.mem_singleton.mp hx2 with rfl
              exact WfNode.str s (by simpa [wfToken] using htwf)
        case Number s =>
          cases fst
          case false => simp at h
          case true =>
            dsimp only at h
            rw [if_pos rfl] at h
            refine ih _ _ _ _ h hrest0 ?_
            intro x hx
            rcases List.mem_append.mp hx with hx2 | hx2
            · exact hreq x hx2
            · rcases List.mem_singleton.mp hx2 with rfl
              have hn : s.data ≠ [] ∧ s.data.all is_number_token_char = true := by
                simpa [wfToken] using htwf
              exact WfNode.num s hn.1 hn.2
        case Boolean b =>
          cases fst
          case false => simp at h
          case true =>
            dsimp only at h
            rw [if_pos rfl] at h
            refine ih _ _ _ _ h hrest0 ?_
            intro x hx
            rcases List.mem_append.mp hx with hx2 | hx2
            · exact hreq x hx2
            · rcases List.mem_singleton.mp hx2 with rfl
              exact WfNode.bool b
        case Null =>
          cases fst
          case false => simp at h
          case true =>
            dsimp only at h
            rw [if_pos rfl] at h
            refine ih _ _ _ _ h hrest0 ?_
            intro x hx
            rcases List.mem_append.mp hx with hx2 | hx2
            · exact hreq x hx2
            · rcases List.mem_singleton.mp hx2 with rfl
              exact WfNode.null
        case OpenBrace =>
          cases fst
          case false => simp at h
          case true =>
            dsimp only at h
            rw [if_pos rfl] at h
            rcases ho : parseF f (.obj [] true) rest0 with _ | (er | ⟨v0, rest2⟩) <;>
              rw [ho] at h
            · simp at h
            · simp at h
            · dsimp only at h
              obtain ⟨hv0, hrest2⟩ :=
                ih _ _ _ _ ho hrest0 ⟨List.Pairwise.nil, by simp, by simp⟩
              refine ih _ _ _ _ h hrest2 ?_
              intro x hx
              rcases List.mem_append.mp hx with hx2 | hx2
              · exact hreq x hx2
              · rcases List.mem_singleton.mp hx2 with rfl
                exact hv0
        case OpenBracket =>
          cases fst
          case false => simp at h
          case true =>
            dsimp only at h
            rw [if_pos rfl] at h
            rcases ho : parseF f (.arr [] true) rest0 with _ | (er | ⟨v0, rest2⟩) <;>
              rw [ho] at h
            · simp at h
            · simp at h
            · dsimp only at h
              obtain ⟨hv0, hrest2⟩ := ih _ _ _ _ ho hrest0 (by simp [reqWf])
              refine ih _ _ _ _ h hrest2 ?_
              intro x hx
              rcases List.mem_append.mp hx with hx2 | hx2
              · exact hreq x hx2
              · rcases List.mem_singleton.mp hx2 with rfl
                exact hv0
        case Comma =>
          cases fst
          case true => simp at h
          case false =>
            dsimp only at h
            rw [if_neg (by simp)] at h
            rcases hst2 : skipTrivia rest0 with _ | ⟨t2, rest2⟩ <;> rw [hst2] at h
            · dsimp only at h
              split at h
              · simp at h
              · simp at h
              · rename parseF _ PReq.val _ = _ => hv
                obtain ⟨hv0, hrest3⟩ := ih _ _ _ _ hv (by simp) trivial
                refine ih _ _ _ _ h hrest3 ?_
                intro x hx
                rcases List.mem_append.mp hx with hx2 | hx2
                · exact hreq x hx2
                · rcases List.mem_singleton.mp hx2 with rfl
                  exact hv0
            · cases t2
              case CloseBracket =>
                simp only [Option.some.injEq, Except.ok.injEq, Prod.mk.injEq] at h
                obtain ⟨h1, h2⟩ := h
                subst h1
                subst h2
                refine ⟨WfNode.arr acc hreq, ?_⟩
                intro tk htk
                exact hrest0 tk (mem_skipTrivia
                  (by rw [hst2]; exact List.mem_cons.mpr (Or.inr htk)))
              all_goals (
                dsimp only at h
                split at h
                · simp at h
                · simp at h
                · rename parseF _ PReq.val _ = _ => hv
                  obtain ⟨hv0, hrest3⟩ := ih _ _ _ _ hv
                    (fun tk htk => hrest0 tk (mem_skipTrivia
                      (by rw [hst2]; exact htk))) trivial
                  refine ih _ _ _ _ h hrest3 ?_
                  intro x hx
                  rcases List.mem_append.mp hx with hx2 | hx2
                  · exact hreq x hx2
                  · rcases List.mem_singleton.mp hx2 with rfl
                    exact hv0)
        all_goals (cases fst <;> simp at h)

/-- `parse` only returns well-formed values on well-formed tokens. -/
theorem parse_wf {ts : List TokenKind} {v : Node}
    (h : parse ts = .ok v) (hts : ∀ tk ∈ ts, wfToken tk) : WfNode v := by
  rw [parse] at h
  rcases hst : skipTrivia ts with _ | ⟨t, rest0⟩ <;> rw [hst] at h
  · simp at h
  · dsimp only at h
    rcases hp : parseF (ts.length + 1) .val ts with _ | (er | ⟨v0, rest⟩) <;>
      rw [hp] at h
    · simp at h
    · simp at h
    · dsimp only at h
      rcases hsr : skipTrivia rest with _ | ⟨t2, r2⟩ <;> rw [hsr] at h
      · simp only [Except.ok.injEq] at h
        subst h
        exact (parseF_wf _ _ _ _ _ hp hts trivial).1
      · simp at h

end Parser

theorem string_data_append (a b : String) : (a ++ b).data = a.data ++ b.data := rfl

theorem string_mk_data (s : String) : String.mk s.data = s := rfl

theorem numberSepOk_of_head {v : Node} {rest : List Char}
    (h : ∃ c r', rest = c :: r' ∧ is_number_token_char c = false) :
    numberSepOk v rest := by
  cases v <;> first | trivial | exact h

theorem valueStarter_not_trivia {t : TokenKind} (h : valueStarter t = true) :
    Parser.isTriviaToken t = false := by
  cases t
  all_goals first | rfl | exact absurd h (by simp [valueStarter])

theorem valueStarter_ne_closeBracket {t : TokenKind} (h : valueStarter t = true) :
    t ≠ .CloseBracket := by
  intro he
  subst he
  simp [valueStarter] at h

theorem exists_forall2 {α β : Type _} (R : α → β → Prop) :
    ∀ (l : List α), (∀ x ∈ l, ∃ y, R x y) → ∃ ys, List.Forall₂ R l ys := by
  intro l
  induction l with
  | nil => intro h; exact ⟨[], List.Forall₂.nil⟩
  | cons x rest ih =>
    intro h
    obtain ⟨y, hy⟩ := h x (List.mem_cons_self _ _)
    obtain ⟨ys, hys⟩ := ih (fun a ha => h a (List.mem_cons.mpr (Or.inr ha)))
    exact ⟨y :: ys, List.Forall₂.cons hy hys⟩

namespace Parser

/-- Inserting a key above every present key appends at the end. -/
theorem insertMember_append :
    ∀ {l : List (String × Node)} {k : String} {v : Node},
      (∀ p ∈ l, strLt p.1 k = true) → insertMember l k v = l ++ [(k, v)] := by
  intro l
  induction l with
  | nil => intro k v h; rfl
  | cons kv0 rest ih =>
    intro k v h
    have h0 := h kv0 (List.mem_cons_self _ _)
    rw [insertMember]
    split_ifs with h1 h2
    · exact absurd (strLt_trans h1 h0) (by simp [strLt_irrefl])
    · exact absurd (h2 ▸ h0) (by simp [strLt_irrefl])
    · rw [ih (fun p hp => h p (List.mem_cons.mpr (Or.inr hp))), List.cons_append]

/-- Folding `insert` over members already in strictly ascending key order
appends them in order. -/
theorem foldl_insert_sorted :
    ∀ (ms acc : List (String × Node)),
      (acc ++ ms).Pairwise (fun a b => strLt a.1 b.1 = true) →
      ms.foldl (fun a kv => insertMember a kv.1 kv.2) acc = acc ++ ms := by
  intro ms
  induction ms with
  | nil => intro acc h; simp
  | cons kv rest ih =>
    intro acc h
    rw [List.foldl_cons]
    obtain ⟨k, v⟩ := kv
    have hlt : ∀ p ∈ acc, strLt p.1 k = true := by
      intro p hp
      exact (List.pairwise_append.mp h).2.2 p hp (k, v) (List.mem_cons_self _ _)
    rw [insertMember_append hlt]
    rw [ih (acc ++ [(k, v)]) (by simpa using h)]
    simp

/-- A map built by inserting an already strictly sorted member sequence is
that sequence itself. -/
theorem sorted_insertAll_id {ms : List (String × Node)}
    (h : ms.Pairwise (fun a b => strLt a.1 b.1 = true)) : insertAll ms = ms := by
  have := foldl_insert_sorted ms [] (by simpa using h)
  simpa [insertAll] using this

/-! ### One-step evaluation lemmas for the parser -/

theorem parseF_val_scalar {t : TokenKind} {v : Node} (h : scalarNode t = some v)
    (f : Nat) (rest : List TokenKind) :
    parseF (f + 1) .val (t :: rest) = some (.ok (v, rest)) := by
  cases t
  case StringValue s =>
    obtain rfl : v = Node.StringValue s := (Option.some.inj h).symm
    rfl
  case Number s =>
    obtain rfl : v = Node.Number s := (Option.some.inj h).symm
    rfl
  case Boolean b =>
    obtain rfl : v = Node.Boolean b := (Option.some.inj h).symm
    rfl
  case Null =>
    obtain rfl : v = Node.Null := (Option.some.inj h).symm
    rfl
  all_goals exact Option.noConfusion h

theorem parseF_val_openBrace (f : Nat) (rest : List TokenKind) :
    parseF (f + 1) .val (.OpenBrace :: rest) = parseF f (.obj [] true) rest := rfl

theorem parseF_val_openBracket (f : Nat) (rest : List TokenKind) :
    parseF (f + 1) .val (.OpenBracket :: rest) = parseF f (.arr [] true) rest := rfl

theorem parseF_obj_close (f : Nat) (acc : List (String × Node)) (fst : Bool)
    (rest : List TokenKind) :
    parseF (f + 1) (.obj acc fst) (.CloseBrace :: rest) =
      some (.ok (.Object acc, rest)) := rfl

theorem parseF_arr_close (f : Nat) (acc : List Node) (fst : Bool)
    (rest : List TokenKind) :
    parseF (f + 1) (.arr acc fst) (.CloseBracket :: rest) =
      some (.ok (.Array acc, rest)) := rfl

theorem parseF_obj_first_member {f : Nat} {rest2 rest3 : List TokenKind} {v0 : Node}
    (h : parseF f .val rest2 = some (.ok (v0, rest3)))
    (acc : List (String × Node)) (k : String) :
    parseF (f + 1) (.obj acc true) (.StringValue k :: .Colon :: rest2) =
      parseF f (.obj (insertMember acc k v0) false) rest3 := by
  rw [parseF,
    skipTrivia_cons_grammar (show isTriviaToken (.StringValue k) = false from rfl)]
  dsimp only
  rw [if_pos rfl,
    skipTrivia_cons_grammar (show isTriviaToken .Colon = false from rfl)]
  dsimp only
  rw [h]

theorem parseF_obj_cont_member {f : Nat} {rest2 rest3 : List TokenKind} {v0 : Node}
    (h : parseF f .val rest2 = some (.ok (v0, rest3)))
    (acc : List (String × Node)) (k : String) :
    parseF (f + 1) (.obj acc false) (.Comma :: .StringValue k :: .Colon :: rest2) =
      parseF f (.obj (insertMember acc k v0) false) rest3 := by
  rw [parseF, skipTrivia_cons_grammar (show isTriviaToken .Comma = false from rfl)]
  dsimp only
  rw [if_neg (by simp),
    skipTrivia_cons_grammar (show isTriviaToken (.StringValue k) = false from rfl)]
  dsimp only
  rw [skipTrivia_cons_grammar (show isTriviaToken .Colon = false from rfl)]
  dsimp only
  rw [h]

theorem parseF_arr_first_scalar {t : TokenKind} {v : Node} (h : scalarNode t = some v)
    (f : Nat) (acc : List Node) (rest : List TokenKind) :
    parseF (f + 1) (.arr acc true) (t :: rest) =
      parseF f (.arr (acc ++ [v]) false) rest := by
  cases t
  case StringValue s =>
    obtain rfl : v = Node.StringValue s := (Option.some.inj h).symm
    rfl
  case Number s =>
    obtain rfl : v = Node.Number s := (Option.some.inj h).symm
    rfl
  case Boolean b =>
    obtain rfl : v = Node.Boolean b := (Option.some.inj h).symm
    rfl
  case Null =>
    obtain rfl : v = Node.Null := (Option.some.inj h).symm
    rfl
  all_goals exact Option.noConfusion h

theorem parseF_arr_first_brace {f : Nat} {rest rest2 : List TokenKind} {v0 : Node}
    (h : parseF f (.obj [] true) rest = some (.ok (v0, rest2)))
    (acc : List Node) :
    parseF (f + 1) (.arr acc true) (.OpenBrace :: rest) =
      parseF f (.arr (acc ++ [v0]) false) rest2 := by
  rw [parseF, skipTrivia_cons_grammar (show isTriviaToken .OpenBrace = false from rfl)]
  dsimp only
  rw [if_pos rfl, h]

theorem parseF_arr_first_bracket {f : Nat} {rest rest2 : List TokenKind} {v0 : Node}
    (h : parseF f (.arr [] true) rest = some (.ok (v0, rest2)))
    (acc : List Node) :
    parseF (f + 1) (.arr acc true) (.OpenBracket :: rest) =
      parseF f (.arr (acc ++ [v0]) false) rest2 := by
  rw [parseF, skipTrivia_cons_grammar (show isTriviaToken .OpenBracket = false from rfl)]
  dsimp only
  rw [if_pos rfl, h]

theorem parseF_arr_cont {f : Nat} {tl rest3 : List TokenKind} {t2 : TokenKind}
    {v0 : Node} (htriv : isTriviaToken t2 = false) (hne : t2 ≠ .CloseBracket)
    (h : parseF f .val (t2 :: tl) = some (.ok (v0, rest3)))
    (acc : List Node) :
    parseF (f + 1) (.arr acc false) (.Comma :: t2 :: tl) =
      parseF f (.arr (acc ++ [v0]) false) rest3 := by
  rw [parseF, skipTrivia_cons_grammar (show isTriviaToken .Comma = false from rfl)]
  dsimp only
  rw [if_neg (by simp), skipTrivia_cons_grammar htriv]
  cases t2 <;>
    first
      | exact absurd rfl hne
      | simp at htriv
      | (dsimp only
         rw [h])

/-- First array element: a value run entering the element loop. -/
theorem tokSpec_arr_first {v : Node} {T : List TokenKind} (hT : TokSpec v T)
    (acc : List Node) (rts : List TokenKind) (f : Nat)
    (hf : T.length + rts.length ≤ f) :
    parseF (f + 1) (.arr acc true) (T ++ rts) =
      parseF f (.arr (acc ++ [v]) false) rts := by
  obtain ⟨⟨t, tail, rfl, hvs⟩, hA, hB⟩ := hT
  cases t
  case StringValue s =>
    have hBf1 := hB rts (f + 1) (by omega)
    rw [List.cons_append,
      parseF_val_scalar (show scalarNode (TokenKind.StringValue s) = some (Node.StringValue s) from rfl)
        f (tail ++ rts)] at hBf1
    simp only [Option.some.injEq, Except.ok.injEq, Prod.mk.injEq] at hBf1
    obtain ⟨h1, h2⟩ := hBf1
    subst h1
    have htail : tail = [] := by
      have hl := congrArg List.length h2
      simpa using hl
    subst htail
    rw [List.cons_append, List.nil_append]
    exact parseF_arr_first_scalar
      (show scalarNode (TokenKind.StringValue s) = some (Node.StringValue s) from rfl) f acc rts
  case Number s =>
    have hBf1 := hB rts (f + 1) (by omega)
    rw [List.cons_append,
      parseF_val_scalar (show scalarNode (TokenKind.Number s) = some (Node.Number s) from rfl)
        f (tail ++ rts)] at hBf1
    simp only [Option.some.injEq, Except.ok.injEq, Prod.mk.injEq] at hBf1
    obtain ⟨h1, h2⟩ := hBf1
    subst h1
    have htail : tail = [] := by
      have hl := congrArg List.length h2
      simpa using hl
    subst htail
    rw [List.cons_append, List.nil_append]
    exact parseF_arr_first_scalar
      (show scalarNode (TokenKind.Number s) = some (Node.Number s) from rfl) f acc rts
  case Boolean b =>
    have hBf1 := hB rts (f + 1) (by omega)
    rw [List.cons_append,
      parseF_val_scalar (show scalarNode (TokenKind.Boolean b) = some (Node.Boolean b) from rfl)
        f (tail ++ rts)] at hBf1
    simp only [Option.some.injEq, Except.ok.injEq, Prod.mk.injEq] at hBf1
    obtain ⟨h1, h2⟩ := hBf1
    subst h1
    have htail : tail = [] := by
      have hl := congrArg List.length h2
      simpa using hl
    subst htail
    rw [List.cons_append, List.nil_append]
    exact parseF_arr_first_scalar
      (show scalarNode (TokenKind.Boolean b) = some (Node.Boolean b) from rfl) f acc rts
  case Null =>
    have hBf1 := hB rts (f + 1) (by omega)
    rw [List.cons_append,
      parseF_val_scalar (show scalarNode TokenKind.Null = some (Node.Null) from rfl)
        f (tail ++ rts)] at hBf1
    simp only [Option.some.injEq, Except.ok.injEq, Prod.mk.injEq] at hBf1
    obtain ⟨h1, h2⟩ := hBf1
    subst h1
    have htail : tail = [] := by
      have hl := congrArg List.length h2
      simpa using hl
    subst htail
    rw [List.cons_append, List.nil_append]
    exact parseF_arr_first_scalar
      (show scalarNode TokenKind.Null = some (Node.Null) from rfl) f acc rts
  case OpenBrace =>
    have hBf1 := hB rts (f + 1) (by omega)
    rw [List.cons_append, parseF_val_openBrace] at hBf1
    rw [List.cons_append]
    exact parseF_arr_first_brace hBf1 acc
  case OpenBracket =>
    have hBf1 := hB rts (f + 1) (by omega)
    rw [List.cons_append, parseF_val_openBracket] at hBf1
    rw [List.cons_append]
    exact parseF_arr_first_bracket hBf1 acc
  all_goals (simp only [valueStarter] at hvs; exact Bool.noConfusion hvs)

/-- Array element loop over the comma-separated runs of the remaining
elements. -/
theorem arr_loop :
    ∀ {items : List Node} {Ts : List (List TokenKind)},
      List.Forall₂ TokSpec items Ts →
      ∀ (acc : List Node) (rts : List TokenKind) (f : Nat),
        (arrContTokens Ts ++ .CloseBracket :: rts).length + 1 ≤ f →
        parseF f (.arr acc false) (arrContTokens Ts ++ .CloseBracket :: rts) =
          some (.ok (.Array (acc ++ items), rts)) := by
  intro items Ts hall
  induction hall with
  | nil =>
    intro acc rts f hf
    obtain ⟨f', rfl⟩ : ∃ f', f = f' + 1 := ⟨f - 1, by omega⟩
    rw [show arrContTokens [] ++ TokenKind.CloseBracket :: rts =
      TokenKind.CloseBracket :: rts from rfl, parseF_arr_close]
    simp
  | cons hT hrest ih =>
    rename_i v T items' Ts'
    intro acc rts f hf
    obtain ⟨f', rfl⟩ : ∃ f', f = f' + 1 := ⟨f - 1, by omega⟩
    obtain ⟨t0, tail0, hT0, hvs0⟩ := hT.1
    subst hT0
    have hstream : arrContTokens ((t0 :: tail0) :: Ts') ++ .CloseBracket :: rts =
        .Comma :: t0 :: (tail0 ++ (arrContTokens Ts' ++ .CloseBracket :: rts)) := by
      simp [arrContTokens]
    rw [hstream]
    have hBv := hT.2.2 (arrContTokens Ts' ++ .CloseBracket :: rts) f' (by
      have hx := hf
      simp only [arrContTokens, List.length_append, List.length_cons] at hx ⊢
      omega)
    rw [List.cons_append] at hBv
    rw [parseF_arr_cont (valueStarter_not_trivia hvs0)
      (valueStarter_ne_closeBracket hvs0) hBv acc]
    rw [ih (acc ++ [v]) rts f' (by
      have hx := hf
      simp only [arrContTokens, List.length_append, List.length_cons] at hx ⊢
      omega)]
    simp

/-- Parsing the token run of a whole array. -/
theorem arr_parse {items : List Node} {Ts : List (List TokenKind)}
    (hall : List.Forall₂ TokSpec items Ts) (rts : List TokenKind) (f : Nat)
    (hf : (TokenKind.OpenBracket :: arrAllTokens Ts ++ [TokenKind.CloseBracket]).length +
      rts.length + 1 ≤ f) :
    parseF f .val ((.OpenBracket :: arrAllTokens Ts ++ [.CloseBracket]) ++ rts) =
      some (.ok (.Array items, rts)) := by
  obtain ⟨f', rfl⟩ : ∃ f', f = f' + 1 := ⟨f - 1, by omega⟩
  have hstream : (.OpenBracket :: arrAllTokens Ts ++ [.CloseBracket]) ++ rts =
      .OpenBracket :: (arrAllTokens Ts ++ .CloseBracket :: rts) := by simp
  rw [hstream, parseF_val_openBracket]
  cases hall with
  | nil =>
    obtain ⟨f2, rfl⟩ : ∃ f2, f' = f2 + 1 := ⟨f' - 1, by
      simp only [List.length_append, List.length_cons] at hf
      omega⟩
    rw [show arrAllTokens ([] : List (List TokenKind)) ++ TokenKind.CloseBracket :: rts =
      TokenKind.CloseBracket :: rts from rfl, parseF_arr_close]
  | cons hT hrest =>
    rename_i v T items' Ts'
    obtain ⟨f2, rfl⟩ : ∃ f2, f' = f2 + 1 := ⟨f' - 1, by
      simp only [List.length_append, List.length_cons] at hf
      omega⟩
    obtain ⟨t0, tail0, hT0, -⟩ := hT.1
    have hstream2 : arrAllTokens (T :: Ts') ++ .CloseBracket :: rts =
        T ++ (arrContTokens Ts' ++ .CloseBracket :: rts) := by
      simp [arrAllTokens]
    rw [hstream2]
    rw [tokSpec_arr_first hT [] (arrContTokens Ts' ++ .CloseBracket :: rts) f2 (by
      have hx := hf
      simp only [arrAllTokens, List.length_append, List.length_cons,
        List.length_nil] at hx ⊢
      omega)]
    rw [arr_loop hrest ([] ++ [v]) rts f2 (by
      have hx := hf
      subst hT0
      simp only [arrAllTokens, arrContTokens, List.length_append,
        List.length_cons, List.length_nil] at hx ⊢
      omega)]
    simp

/-- Object member loop over the comma-separated runs of the remaining
members. -/
theorem obj_loop :
    ∀ {ms : List (String × Node)} {L : List (String × List TokenKind)},
      List.Forall₂ (fun kv kT =>
        kv.1 = kT.1 ∧ StrUnits kv.1.data ∧ TokSpec kv.2 kT.2) ms L →
      ∀ (acc : List (String × Node)) (rts : List TokenKind) (f : Nat),
        (objContTokens L ++ .CloseBrace :: rts).length + 1 ≤ f →
        parseF f (.obj acc false) (objContTokens L ++ .CloseBrace :: rts) =
          some (.ok (.Object
            (ms.foldl (fun a kv => insertMember a kv.1 kv.2) acc), rts)) := by
  intro ms L hall
  induction hall with
  | nil =>
    intro acc rts f hf
    obtain ⟨f', rfl⟩ : ∃ f', f = f' + 1 := ⟨f - 1, by omega⟩
    rw [show objContTokens [] ++ TokenKind.CloseBrace :: rts =
      TokenKind.CloseBrace :: rts from rfl, parseF_obj_close]
    simp
  | cons hR hrest ih =>
    rename_i kv kT ms' L'
    intro acc rts f hf
    obtain ⟨f', rfl⟩ : ∃ f', f = f' + 1 := ⟨f - 1, by omega⟩
    obtain ⟨k, v⟩ := kv
    obtain ⟨k2, T⟩ := kT
    obtain ⟨hk, hku, hT⟩ := hR
    simp only at hk
    subst hk
    have hstream : objContTokens ((k, T) :: L') ++ .CloseBrace :: rts =
        .Comma :: .StringValue k :: .Colon ::
          (T ++ (objContTokens L' ++ .CloseBrace :: rts)) := by
      simp [objContTokens, objMemberTokens]
    rw [hstream]
    have hBv := hT.2.2 (objContTokens L' ++ .CloseBrace :: rts) f' (by
      have hx := hf
      simp only [objContTokens, objMemberTokens, List.length_append,
        List.length_cons] at hx ⊢
      omega)
    rw [parseF_obj_cont_member hBv acc k]
    rw [ih (insertMember acc k v) rts f' (by
      have hx := hf
      simp only [objContTokens, objMemberTokens, List.length_append,
        List.length_cons] at hx ⊢
      omega)]
    simp

/-- Parsing the token run of a whole object builds the inserted map. -/
theorem obj_parse {ms : List (String × Node)} {L : List (String × List TokenKind)}
    (hall : List.Forall₂ (fun kv kT =>
      kv.1 = kT.1 ∧ StrUnits kv.1.data ∧ TokSpec kv.2 kT.2) ms L)
    (rts : List TokenKind) (f : Nat)
    (hf : (TokenKind.OpenBrace :: objAllTokens L ++ [TokenKind.CloseBrace]).length +
      rts.length + 1 ≤ f) :
    parseF f .val ((.OpenBrace :: objAllTokens L ++ [.CloseBrace]) ++ rts) =
      some (.ok (.Object (insertAll ms), rts)) := by
  obtain ⟨f', rfl⟩ : ∃ f', f = f' + 1 := ⟨f - 1, by omega⟩
  have hstream : (.OpenBrace :: objAllTokens L ++ [.CloseBrace]) ++ rts =
      .OpenBrace :: (objAllTokens L ++ .CloseBrace :: rts) := by simp
  rw [hstream, parseF_val_openBrace]
  cases hall with
  | nil =>
    obtain ⟨f2, rfl⟩ : ∃ f2, f' = f2 + 1 := ⟨f' - 1, by
      simp only [List.length_append, List.length_cons] at hf
      omega⟩
    rw [show objAllTokens ([] : List (String × List TokenKind)) ++ TokenKind.CloseBrace :: rts =
      TokenKind.CloseBrace :: rts from rfl, parseF_obj_close]
    rfl
  | cons hR hrest =>
    rename_i kv kT ms' L'
    obtain ⟨f2, rfl⟩ : ∃ f2, f' = f2 + 1 := ⟨f' - 1, by
      simp only [List.length_append, List.length_cons] at hf
      omega⟩
    obtain ⟨k, v⟩ := kv
    obtain ⟨k2, T⟩ := kT
    obtain ⟨hk, hku, hT⟩ := hR
    simp only at hk
    subst hk
    have hstream2 : objAllTokens ((k, T) :: L') ++ .CloseBrace :: rts =
        .StringValue k :: .Colon :: (T ++ (objContTokens L' ++ .CloseBrace :: rts)) := by
      simp [objAllTokens, objMemberTokens]
    rw [hstream2]
    have hBv := hT.2.2 (objContTokens L' ++ .CloseBrace :: rts) f2 (by
      have hx := hf
      simp only [objAllTokens, objContTokens, objMemberTokens, List.length_append,
        List.length_cons] at hx ⊢
      omega)
    rw [parseF_obj_first_member hBv [] k]
    rw [obj_loop hrest (insertMember [] k v) rts f2 (by
      have hx := hf
      simp only [objAllTokens, objContTokens, objMemberTokens, List.length_append,
        List.length_cons] at hx ⊢
      omega)]
    rfl

/-- A value run parses as the whole document. -/
theorem parse_tokSpec {v : Node} {T : List TokenKind} (hT : TokSpec v T) :
    parse T = .ok v := by
  obtain ⟨⟨t, tail, rfl, hvs⟩, hA, hB⟩ := hT
  rw [parse, skipTrivia_cons_grammar (valueStarter_not_trivia hvs)]
  dsimp only
  have hBf := hB [] ((t :: tail).length + 1) (by simp)
  rw [List.append_nil] at hBf
  rw [hBf]
  rfl

end Parser

/-- Scanning a verbatim string body given as a character list. -/
theorem Lexer.scan_string_token_units {k : List Char} (hk : StrUnits k)
    (rest : List Char) (i : Nat) :
    Lexer.scan_string_token (k ++ '"' :: rest) i =
      .ok (.StringValue (String.mk k), rest, i + k.length + 1) := by
  show Lexer.scanStringAux [] (k ++ '"' :: rest) i = _
  rw [Lexer.scanStringAux_units hk]
  simp

/-- Lexing one serialized object member (quoted key, colon, value run). -/
theorem member_tok {k : String} {v : Node} {T : List TokenKind}
    (hk : StrUnits k.data) (hT : TokSpec v T) :
    ∀ (ctext : List Char) (i : Nat),
      (∃ c r', ctext = c :: r' ∧ is_number_token_char c = false) →
      ∃ i', Lexer.tokenizeFrom
          ('"' :: (k.data ++ '"' :: ':' :: (v.to_json_string.data ++ ctext))) i =
        (Lexer.tokenizeFrom ctext i').map (fun ts => objMemberTokens k T ++ ts) := by
  intro ctext i hhead
  rw [Lexer.tokenizeFrom_string]
  rw [Lexer.scan_string_token_units hk (':' :: (v.to_json_string.data ++ ctext)) (i + 1)]
  dsimp only
  rw [string_mk_data]
  rw [Lexer.tokenizeFrom_simple (show Lexer.simpleTokenKind ':' = some .Colon from rfl)]
  obtain ⟨i2, heq⟩ := hT.2.1 ctext (i + 1 + k.data.length + 1 + 1)
    (numberSepOk_of_head hhead)
  rw [heq]
  refine ⟨i2, ?_⟩
  cases Lexer.tokenizeFrom ctext i2 <;> simp [Except.map, objMemberTokens]

/-- Lexing the comma-joined serializations of array elements. -/
theorem arr_tok :
    ∀ {items : List Node} {Ts : List (List TokenKind)},
      List.Forall₂ TokSpec items Ts →
      ∀ (restText : List Char) (i : Nat),
        (∃ c r', restText = c :: r' ∧ is_number_token_char c = false) →
        ∃ i', Lexer.tokenizeFrom ((joinComma (jsonItems items)).data ++ restText) i =
          (Lexer.tokenizeFrom restText i').map (fun ts => arrAllTokens Ts ++ ts) := by
  intro items Ts hall
  induction hall with
  | nil =>
    intro restText i hhead
    refine ⟨i, ?_⟩
    rw [show (joinComma (jsonItems [])).data = [] from rfl, List.nil_append]
    cases Lexer.tokenizeFrom restText i <;> simp [Except.map, arrAllTokens]
  | cons hT hrest ih =>
    rename_i v T items' Ts'
    cases hrest with
    | nil =>
      intro restText i hhead
      rw [show (joinComma (jsonItems [v])).data = v.to_json_string.data from rfl]
      obtain ⟨i', heq⟩ := hT.2.1 restText i (numberSepOk_of_head hhead)
      refine ⟨i', ?_⟩
      rw [heq]
      cases Lexer.tokenizeFrom restText i' <;> simp [Except.map, arrAllTokens, arrContTokens]
    | cons hT2 hrest2 =>
      rename_i v2 T2 items'' Ts''
      intro restText i hhead
      have hdata : (joinComma (jsonItems (v :: v2 :: items''))).data ++ restText =
          v.to_json_string.data ++
            (',' :: ((joinComma (jsonItems (v2 :: items''))).data ++ restText)) := by
        rw [show joinComma (jsonItems (v :: v2 :: items'')) =
          v.to_json_string ++ "," ++ joinComma (jsonItems (v2 :: items'')) from rfl]
        simp [string_data_append, show ("," : String).data = [','] from rfl]
      rw [hdata]
      obtain ⟨i1, heq1⟩ := hT.2.1
        (',' :: ((joinComma (jsonItems (v2 :: items''))).data ++ restText)) i
        (numberSepOk_of_head ⟨',', _, rfl, by decide⟩)
      rw [heq1, Lexer.tokenizeFrom_simple
        (show Lexer.simpleTokenKind ',' = some .Comma from rfl)]
      obtain ⟨i2, heq2⟩ := ih restText (i1 + 1) hhead
      rw [heq2]
      refine ⟨i2, ?_⟩
      cases Lexer.tokenizeFrom restText i2 <;>
        simp [Except.map, arrAllTokens, arrContTokens, List.append_assoc]

/-- Lexing the comma-joined serializations of object members. -/
theorem obj_tok :
    ∀ {ms : List (String × Node)} {L : List (String × List TokenKind)},
      List.Forall₂ (fun kv kT =>
        kv.1 = kT.1 ∧ StrUnits kv.1.data ∧ TokSpec kv.2 kT.2) ms L →
      ∀ (restText : List Char) (i : Nat),
        (∃ c r', restText = c :: r' ∧ is_number_token_char c = false) →
        ∃ i', Lexer.tokenizeFrom ((joinComma (jsonMembers ms)).data ++ restText) i =
          (Lexer.tokenizeFrom restText i').map (fun ts => objAllTokens L ++ ts) := by
  intro ms L hall
  induction hall with
  | nil =>
    intro restText i hhead
    refine ⟨i, ?_⟩
    rw [show (joinComma (jsonMembers [])).data = [] from rfl, List.nil_append]
    cases Lexer.tokenizeFrom restText i <;> simp [Except.map, objAllTokens]
  | cons hR hrest ih =>
    rename_i kv kT ms' L'
    obtain ⟨k, v⟩ := kv
    obtain ⟨k2, T⟩ := kT
    obtain ⟨hk, hku, hT⟩ := hR
    simp only at hk
    subst hk
    cases hrest with
    | nil =>
      intro restText i hhead
      have hdata : (joinComma (jsonMembers [(k, v)])).data ++ restText =
          '"' :: (k.data ++ '"' :: ':' :: (v.to_json_string.data ++ restText)) := by
        rw [show joinComma (jsonMembers [(k, v)]) =
          "\"" ++ k ++ "\":" ++ v.to_json_string from rfl]
        simp [string_data_append, show ("\"" : String).data = ['"'] from rfl,
          show ("\":" : String).data = ['"', ':'] from rfl]
      rw [hdata]
      obtain ⟨i', heq⟩ := member_tok hku hT restText i hhead
      refine ⟨i', ?_⟩
      rw [heq]
      cases Lexer.tokenizeFrom restText i' <;>
        simp [Except.map, objAllTokens, objContTokens]
    | cons hR2 hrest2 =>
      rename_i kv2 kT2 ms'' L''
      obtain ⟨k2', v2⟩ := kv2
      intro restText i hhead
      have hdata : (joinComma (jsonMembers ((k, v) :: (k2', v2) :: ms''))).data ++ restText =
          '"' :: (k.data ++ '"' :: ':' :: (v.to_json_string.data ++
            (',' :: ((joinComma (jsonMembers ((k2', v2) :: ms''))).data ++ restText)))) := by
        rw [show joinComma (jsonMembers ((k, v) :: (k2', v2) :: ms'')) =
          ("\"" ++ k ++ "\":" ++ v.to_json_string) ++ "," ++
            joinComma (jsonMembers ((k2', v2) :: ms'')) from rfl]
        simp [string_data_append, show ("\"" : String).data = ['"'] from rfl,
          show ("\":" : String).data = ['"', ':'] from rfl,
          show ("," : String).data = [','] from rfl]
      rw [hdata]
      obtain ⟨i1, heq1⟩ := member_tok hku hT
        (',' :: ((joinComma (jsonMembers ((k2', v2) :: ms''))).data ++ restText)) i
        ⟨',', _, rfl, by decide⟩
      rw [heq1, Lexer.tokenizeFrom_simple
        (show Lexer.simpleTokenKind ',' = some .Comma from rfl)]
      obtain ⟨i2, heq2⟩ := ih restText (i1 + 1) hhead
      rw [heq2]
      refine ⟨i2, ?_⟩
      cases Lexer.tokenizeFrom restText i2 <;>
        simp [Except.map, objAllTokens, objContTokens, objMemberTokens, List.append_assoc]

/-- Every well-formed value has a token run: its compact serialization
lexes to that run and the run parses back to the value. -/
theorem wf_tokSpec : ∀ {v : Node}, WfNode v → ∃ T, TokSpec v T := by
  intro v hwf
  induction hwf with
  | str s hs =>
    refine ⟨[.StringValue s], ⟨_, _, rfl, rfl⟩, ?_, ?_⟩
    · intro restText i hsep
      have hdata : (Node.to_json_string (.StringValue s)).data ++ restText =
          '"' :: (s.data ++ '"' :: restText) := by
        rw [show Node.to_json_string (.StringValue s) = "\"" ++ s ++ "\"" from rfl]
        simp [string_data_append, show ("\"" : String).data = ['"'] from rfl]
      rw [hdata, Lexer.tokenizeFrom_string,
        Lexer.scan_string_token_units hs restText (i + 1)]
      dsimp only
      rw [string_mk_data]
      exact ⟨i + 1 + s.data.length + 1, rfl⟩
    · intro rts f hf
      obtain ⟨f', rfl⟩ : ∃ f', f = f' + 1 := ⟨f - 1, by omega⟩
      rw [List.singleton_append]
      exact Parser.parseF_val_scalar
        (show scalarNode (.StringValue s) = some (.StringValue s) from rfl) f' rts
  | num s hne hall =>
    refine ⟨[.Number s], ⟨_, _, rfl, rfl⟩, ?_, ?_⟩
    · intro restText i hsep
      obtain ⟨c, r', rfl, hc⟩ := hsep
      rcases hd : s.data with _ | ⟨c0, tl⟩
      · exact absurd hd hne
      · have hc0 : is_number_token_char c0 = true :=
          List.all_eq_true.mp hall c0 (by rw [hd]; exact List.mem_cons_self _ _)
        have htl : ∀ x ∈ tl, is_number_token_char x = true := fun x hx =>
          List.all_eq_true.mp hall x (by rw [hd]; exact List.mem_cons.mpr (Or.inr hx))
        have hdata : (Node.to_json_string (.Number s)).data ++ (c :: r') =
            c0 :: (tl ++ c :: r') := by
          rw [show Node.to_json_string (.Number s) = s from rfl, hd, List.cons_append]
        rw [hdata, Lexer.tokenizeFrom_number hc0]
        have h1 : (tl ++ c :: r').takeWhile is_number_token_char = tl := by
          rw [takeWhile_append_all tl (c :: r') htl, List.takeWhile_cons]
          simp [hc]
        have h2 : (tl ++ c :: r').dropWhile is_number_token_char = c :: r' := by
          rw [dropWhile_append_all tl (c :: r') htl, List.dropWhile_cons]
          simp [hc]
        have hscan : Lexer.scan_number_token c0 (tl ++ c :: r') (i + 1) =
            .ok (.Number s, c :: r', i + 1 + tl.length) := by
          show Lexer.scanNumberAux [c0] (tl ++ c :: r') (i + 1) = _
          rw [Lexer.scanNumberAux_char _ _ _ ⟨c, by simp, hc⟩, h1, h2]
          have hmk : String.mk ([c0] ++ tl) = s := by
            rw [List.singleton_append, ← hd]
          rw [hmk]
        rw [hscan]
        exact ⟨i + 1 + tl.length, rfl⟩
    · intro rts f hf
      obtain ⟨f', rfl⟩ : ∃ f', f = f' + 1 := ⟨f - 1, by omega⟩
      rw [List.singleton_append]
      exact Parser.parseF_val_scalar
        (show scalarNode (.Number s) = some (.Number s) from rfl) f' rts
  | bool b =>
    cases b
    · refine ⟨[.Boolean false], ⟨_, _, rfl, rfl⟩, ?_, ?_⟩
      · intro restText i hsep
        rw [show (Node.to_json_string (.Boolean false)).data ++ restText =
          'f' :: ('a' :: 'l' :: 's' :: 'e' :: restText) from rfl]
        rw [Lexer.tokenizeFrom_f]
        rw [show Lexer.scan_bool_token false i ('a' :: 'l' :: 's' :: 'e' :: restText) =
          .ok (.Boolean false, restText, i + 1 + 4) from rfl]
        exact ⟨i + 1 + 4, rfl⟩
      · intro rts f hf
        obtain ⟨f', rfl⟩ : ∃ f', f = f' + 1 := ⟨f - 1, by omega⟩
        rw [List.singleton_append]
        exact Parser.parseF_val_scalar
          (show scalarNode (.Boolean false) = some (.Boolean false) from rfl) f' rts
    · refine ⟨[.Boolean true], ⟨_, _, rfl, rfl⟩, ?_, ?_⟩
      · intro restText i hsep
        rw [show (Node.to_json_string (.Boolean true)).data ++ restText =
          't' :: ('r' :: 'u' :: 'e' :: restText) from rfl]
        rw [Lexer.tokenizeFrom_t]
        rw [show Lexer.scan_bool_token true i ('r' :: 'u' :: 'e' :: restText) =
          .ok (.Boolean true, restText, i + 1 + 3) from rfl]
        exact ⟨i + 1 + 3, rfl⟩
      · intro rts f hf
        obtain ⟨f', rfl⟩ : ∃ f', f = f' + 1 := ⟨f - 1, by omega⟩
        rw [List.singleton_append]
        exact Parser.parseF_val_scalar
          (show scalarNode (.Boolean true) = some (.Boolean true) from rfl) f' rts
  | null =>
    refine ⟨[.Null], ⟨_, _, rfl, rfl⟩, ?_, ?_⟩
    · intro restText i hsep
      rw [show (Node.to_json_string .Null).data ++ restText =
        'n' :: ('u' :: 'l' :: 'l' :: restText) from rfl]
      rw [Lexer.tokenizeFrom_n]
      rw [show Lexer.scan_null_token i ('u' :: 'l' :: 'l' :: restText) =
        .ok (.Null, restText, i + 1 + 3) from rfl]
      exact ⟨i + 1 + 3, rfl⟩
    · intro rts f hf
      obtain ⟨f', rfl⟩ : ∃ f', f = f' + 1 := ⟨f - 1, by omega⟩
      rw [List.singleton_append]
      exact Parser.parseF_val_scalar
        (show scalarNode .Null = some Node.Null from rfl) f' rts
  | obj members hsort hkeys hvals ih =>
    obtain ⟨L, hall⟩ := exists_forall2
      (fun (kv : String × Node) (kT : String × List TokenKind) =>
        kv.1 = kT.1 ∧ StrUnits kv.1.data ∧ TokSpec kv.2 kT.2)
      members (fun kv hkv => by
        obtain ⟨T, hT⟩ := ih kv hkv
        exact ⟨(kv.1, T), rfl, hkeys kv hkv, hT⟩)
    refine ⟨.OpenBrace :: objAllTokens L ++ [.CloseBrace],
      ⟨.OpenBrace, objAllTokens L ++ [.CloseBrace], rfl, rfl⟩, ?_, ?_⟩
    · intro restText i hsep
      have hdata : (Node.to_json_string (.Object members)).data ++ restText =
          '{' :: ((joinComma (jsonMembers members)).data ++ ('}' :: restText)) := by
        rw [show Node.to_json_string (.Object members) =
          "\x7b" ++ joinComma (jsonMembers members) ++ "\x7d" from rfl]
        simp [string_data_append, show ("\x7b" : String).data = ['{'] from rfl,
          show ("\x7d" : String).data = ['}'] from rfl]
      rw [hdata, Lexer.tokenizeFrom_simple
        (show Lexer.simpleTokenKind '{' = some .OpenBrace from rfl)]
      obtain ⟨i1, heq1⟩ := obj_tok hall ('}' :: restText) (i + 1) ⟨'}', _, rfl, by decide⟩
      rw [heq1, Lexer.tokenizeFrom_simple
        (show Lexer.simpleTokenKind '}' = some .CloseBrace from rfl)]
      refine ⟨i1 + 1, ?_⟩
      cases Lexer.tokenizeFrom restText (i1 + 1) <;>
        simp [Except.map, List.append_assoc]
    · intro rts f hf
      have hp := Parser.obj_parse hall rts f hf
      rw [Parser.sorted_insertAll_id hsort] at hp
      exact hp
  | arr items hvals ih =>
    obtain ⟨Ts, hall⟩ := exists_forall2 TokSpec items ih
    refine ⟨.OpenBracket :: arrAllTokens Ts ++ [.CloseBracket],
      ⟨.OpenBracket, arrAllTokens Ts ++ [.CloseBracket], rfl, rfl⟩, ?_, ?_⟩
    · intro restText i hsep
      have hdata : (Node.to_json_string (.Array items)).data ++ restText =
          '[' :: ((joinComma (jsonItems items)).data ++ (']' :: restText)) := by
        rw [show Node.to_json_string (.Array items) =
          "[" ++ joinComma (jsonItems items) ++ "]" from rfl]
        simp [string_data_append, show ("[" : String).data = ['['] from rfl,
          show ("]" : String).data = [']'] from rfl]
      rw [hdata, Lexer.tokenizeFrom_simple
        (show Lexer.simpleTokenKind '[' = some .OpenBracket from rfl)]
      obtain ⟨i1, heq1⟩ := arr_tok hall (']' :: restText) (i + 1) ⟨']', _, rfl, by decide⟩
      rw [heq1, Lexer.tokenizeFrom_simple
        (show Lexer.simpleTokenKind ']' = some .CloseBracket from rfl)]
      refine ⟨i1 + 1, ?_⟩
      cases Lexer.tokenizeFrom restText (i1 + 1) <;>
        simp [Except.map, List.append_assoc]
    · intro rts f hf
      exact Parser.arr_parse hall rts f hf

/-! ## Claims -/

/-- C1: for every number literal in an accepted input, its text is
preserved byte-for-byte through the pipeline: the lexer's number scan
stores the scanned characters verbatim in the `Number` token (the dispatch
character followed by the maximal run of number characters, never converted
to a float), and `to_json_string` emits the stored text unchanged. -/
theorem C1_number_text_verbatim :
    (∀ (first : Char) (l : List Char) (i : Nat),
      (∃ x ∈ l, is_number_token_char x = false) →
      Lexer.scan_number_token first l i =
        .ok (.Number (String.mk (first :: l.takeWhile is_number_token_char)),
          l.dropWhile is_number_token_char,
          i + (l.takeWhile is_number_token_char).length)) ∧
    (∀ s : String, (Node.Number s).to_json_string = s) := by
  constructor
  · intro first l i h
    rw [Lexer.scan_number_token, Lexer.scanNumberAux_char l [first] i h]
    simp
  · intro s
    rfl

/-- Witness for C1 at the spec's example `999.990000`. -/
theorem C1_number_text_verbatim_witness :
    Lexer.scan_number_token '9' "99.990000 ".data 1 =
      .ok (.Number "999.990000", [' '], 10) ∧
    (Node.Number "999.990000").to_json_string = "999.990000" := by
  constructor
  · rw [C1_number_text_verbatim.1 '9' "99.990000 ".data 1 ⟨' ', by decide, by decide⟩]
    rfl
  · exact C1_number_text_verbatim.2 "999.990000"

/-- C3 (counterexample): the `parser.rs` lexer gives the structural token
for `{` at offset 0 the zero-width span `(0, 0)`, not `(0, 1)` as claimed. -/
theorem C3_structural_span_counterexample :
    PLexer.tokenize ['{'] =
      .ok [⟨.OpenBrace, some ⟨0, 0⟩⟩] ∧
    (⟨0, 0⟩ : Location) ≠ ⟨0, 1⟩ := by
  constructor
  · rfl
  · decide

/-- C3 (amended): for every occurrence of one of the structural characters
at offset `i`, the `parser.rs` lexer emits the corresponding structural
token with the zero-width span `(i, i)` (both offsets equal to the
character's index), and continues at offset `i + 1`. -/
theorem C3_structural_span :
    ∀ (c : Char) (k : TokenKind), PLexer.structuralKind c = some k →
      ∀ (f : Nat) (rest : List Char) (i : Nat),
        PLexer.tokenizeF (f + 1) (c :: rest) i =
          (PLexer.tokenizeF f rest (i + 1)).map
            (·.map ((⟨k, some ⟨i, i⟩⟩ : Annotation) :: ·)) :=
  fun _ _ h f rest i => PLexer.tokenizeF_structural h f rest i

/-- Witness for C3 at `:` in `{"a":1}` (offset 4). -/
theorem C3_structural_span_witness :
    PLexer.structuralKind ':' = some .Colon ∧
    PLexer.tokenizeF 3 [':', '1'] 4 =
      (PLexer.tokenizeF 2 ['1'] 5).map
        (·.map ((⟨.Colon, some ⟨4, 4⟩⟩ : Annotation) :: ·)) :=
  ⟨by decide, C3_structural_span ':' .Colon (by decide) 2 ['1'] 4⟩

/-- C4: when the lexer dispatches on `t` or `f` and the consumed characters
(exactly 3 more after `t`, 4 more after `f`) do not spell `true`/`false`,
the scan fails with `InvalidChars` carrying the consumed text and its span,
and `tokenize` propagates exactly that error. -/
theorem C4_bool_invalid_chars :
    (∀ (i : Nat) (l : List Char), String.mk ('t' :: l.take 3) ≠ "true" →
      Lexer.scan_bool_token true i l =
        .error (.InvalidChars (String.mk ('t' :: l.take 3)) ⟨i, i + 3⟩)) ∧
    (∀ (i : Nat) (l : List Char), String.mk ('f' :: l.take 4) ≠ "false" →
      Lexer.scan_bool_token false i l =
        .error (.InvalidChars (String.mk ('f' :: l.take 4)) ⟨i, i + 4⟩)) ∧
    (∀ (rest : List Char) (i : Nat), String.mk ('t' :: rest.take 3) ≠ "true" →
      Lexer.tokenizeFrom ('t' :: rest) i =
        .error (.InvalidChars (String.mk ('t' :: rest.take 3)) ⟨i, i + 3⟩)) ∧
    (∀ (rest : List Char) (i : Nat), String.mk ('f' :: rest.take 4) ≠ "false" →
      Lexer.tokenizeFrom ('f' :: rest) i =
        .error (.InvalidChars (String.mk ('f' :: rest.take 4)) ⟨i, i + 4⟩)) := by
  have ht : ∀ (i : Nat) (l : List Char), String.mk ('t' :: l.take 3) ≠ "true" →
      Lexer.scan_bool_token true i l =
        .error (.InvalidChars (String.mk ('t' :: l.take 3)) ⟨i, i + 3⟩) := by
    intro i l h
    rw [Lexer.scan_bool_token]
    simp only [if_true]
    rw [if_neg h, if_neg ?_]
    intro hf
    rw [String.ext_iff] at hf
    simp at hf
  have hf : ∀ (i : Nat) (l : List Char), String.mk ('f' :: l.take 4) ≠ "false" →
      Lexer.scan_bool_token false i l =
        .error (.InvalidChars (String.mk ('f' :: l.take 4)) ⟨i, i + 4⟩) := by
    intro i l h
    rw [Lexer.scan_bool_token]
    simp only [if_false, Bool.false_eq_true]
    rw [if_neg ?_, if_neg h]
    intro htr
    rw [String.ext_iff] at htr
    simp at htr
  refine ⟨ht, hf, ?_, ?_⟩
  · intro rest i h
    rw [Lexer.tokenizeFrom_t, ht i rest h]
  · intro rest i h
    rw [Lexer.tokenizeFrom_f, hf i rest h]

/-- Witness for C4 at `txy` and `fals`. -/
theorem C4_bool_invalid_chars_witness :
    Lexer.scan_bool_token true 0 "xy".data =
      .error (.InvalidChars "txy" ⟨0, 3⟩) ∧
    Lexer.tokenizeFrom "fals".data 2 =
      .error (.InvalidChars "fals" ⟨2, 6⟩) := by
  constructor
  · rw [C4_bool_invalid_chars.1 0 "xy".data (by decide)]
    rfl
  · rw [show ("fals".data : List Char) = 'f' :: "als".data from rfl,
      C4_bool_invalid_chars.2.2.2 "als".data 2 (by decide)]
    rfl

/-- C5 (counterexample): the block-comment scanner drops interior `/`
characters: the body stored for `/*a/b*/` is `ab`, not the between-text
`a/b`. -/
theorem C5_block_comment_counterexample :
    Lexer.scan_comment_token "*a/b*/".data 1 =
      .ok (.CommentBlock "ab", [], 7) ∧
    ("ab" : String) ≠ "a/b" := by
  constructor
  · rfl
  · decide

/-- C5 (amended): for a terminated block comment whose region `B` between
`/*` and the `*` of the first `*/` contains no `*/` pair, the stored body
is `B` with every `/` character removed and the trailing asterisk run
dropped (asterisk runs followed by an ordinary character are flushed into
the body, so leading `**`-style decorations survive, while the run fusing
with the terminator is discarded). -/
theorem C5_block_comment_body :
    ∀ (B rest : List Char) (i : Nat), hasStarSlash B = false →
      Lexer.scan_comment_token ('*' :: B ++ '*' :: '/' :: rest) i =
        .ok (.CommentBlock (String.mk (blockBodyText B)), rest, i + B.length + 3) := by
  intro B rest i hss
  rw [show ('*' :: B ++ '*' :: '/' :: rest) = '*' :: (B ++ '*' :: '/' :: rest) from rfl,
    Lexer.scan_comment_token.eq_2, if_neg (by decide), if_pos rfl]
  rw [Lexer.scanBlockAux_char B [] [] false (i + 1) rest hss (fun _ => rfl) (by simp)]
  rw [Lexer.bodyFrom_spec B [] false hss (fun _ => rfl) (by simp) (by simp)]
  simp only [Except.ok.injEq, Prod.mk.injEq, List.nil_append]
  exact ⟨by simp [blockBodyText], by simp, by omega⟩

/-- Witness for C5 at the repository's own test comment
`/*\n**\ntest comment\n**\n*/`. -/
theorem C5_block_comment_body_witness :
    hasStarSlash "\n**\ntest comment\n**\n".data = false ∧
    Lexer.scan_comment_token ('*' :: "\n**\ntest comment\n**\n".data ++ '*' :: '/' :: []) 1 =
      .ok (.CommentBlock "\n**\ntest comment\n**\n", [], 24) := by
  refine ⟨by decide, ?_⟩
  rw [C5_block_comment_body "\n**\ntest comment\n**\n".data [] 1 (by decide)]
  rfl

/-- C6: every string literal whose body lies in the scanner's language —
in particular one made of `\uXXXX` escapes such as the surrogate pair
`😀` — lexes to a single `StringValue` token whose stored text is
the body verbatim (escapes kept as their literal character sequences,
surrogate pairs not merged), and `to_json_string` emits the stored text
unchanged between quotes. -/
theorem C6_string_escapes_verbatim :
    (∀ (s rest : List Char) (i : Nat), StrUnits s →
      Lexer.scan_string_token (s ++ '"' :: rest) i =
        .ok (.StringValue (String.mk s), rest, i + s.length + 1)) ∧
    (∀ s : String, (Node.StringValue s).to_json_string = "\"" ++ s ++ "\"") := by
  constructor
  · intro s rest i hs
    rw [Lexer.scan_string_token, Lexer.scanStringAux_units hs [] rest i]
    simp
  · intro s
    rfl

/-- C2 (counterexample): a bare scalar at end of input is not always
accepted: a bare number aborts lexing with `NotExistTerminalSymbol`
(`scan_number_token` errors when input ends mid-scan), and so does a
scalar followed by trailing spaces (`scan_whitespaces` errors at end of
input), so the pipeline rejects `1` and `true `. -/
theorem C2_scalar_counterexample :
    Lib.to_json_string "1" = .error (.inl .NotExistTerminalSymbol) ∧
    Lib.to_json_string "true " = .error (.inl .NotExistTerminalSymbol) :=
  ⟨rfl, rfl⟩

/-- C2 (amended): for every token sequence consisting of one scalar token
(string, number, boolean, or null) surrounded by whitespace, line-break,
and comment tokens, parse returns that scalar Value.  (Tokenize itself does
not always succeed on such texts: a scan that reaches end of input — a
bare number, a trailing space run, an unterminated line comment — aborts
with `NotExistTerminalSymbol`, as the counterexample shows.) -/
theorem C2_scalar_with_trivia :
    ∀ (pre post : List TokenKind) (tok : TokenKind) (v : Node),
      (∀ t ∈ pre, Parser.isTriviaToken t = true) →
      (∀ t ∈ post, Parser.isTriviaToken t = true) →
      scalarNode tok = some v →
      Parser.parse (pre ++ tok :: post) = .ok v := by
  intro pre post tok v hpre hpost htok
  have hnt : Parser.isTriviaToken tok = false := by
    cases tok <;> simp_all [scalarNode, Parser.isTriviaToken]
  have h1 : Parser.skipTrivia (pre ++ tok :: post) = tok :: post := by
    rw [Parser.skipTrivia_append hpre, Parser.skipTrivia_cons_grammar hnt]
  have h2 : Parser.skipTrivia post = [] := Parser.skipTrivia_nil_of hpost
  rw [Parser.parse, h1]
  have hlen : (pre ++ tok :: post).length + 1 = (pre ++ tok :: post).length + 1 := rfl
  cases tok <;> simp [scalarNode] at htok <;>
    · rw [show (pre ++ _ :: post).length + 1 = ((pre ++ _ :: post).length) + 1 from rfl,
        Parser.parseF, h1]
      simp [htok, h2]

/-- Witness for C2: a boolean scalar between a whitespace run and a
comment/line-break parses to that boolean. -/
theorem C2_scalar_with_trivia_witness :
    Parser.parse ([.WhiteSpaces 1] ++ .Boolean true ::
        [.CommentLine " c", .BreakLine]) = .ok (.Boolean true) :=
  C2_scalar_with_trivia [.WhiteSpaces 1] [.CommentLine " c", .BreakLine]
    (.Boolean true) (.Boolean true) (by decide) (by decide) rfl

/-- C7: a single trailing comma immediately before the closing brace or
bracket does not change the parse (the member/element loops return the same
result with and without it, and the whole pipeline gives equal outputs),
while a leading comma (no member/element yet parsed) yields
`UnexpectedToken`. -/
theorem C7_trailing_comma :
    (∀ (f : Nat) (acc : List (String × Node)) (rest : List TokenKind),
      Parser.parseF (f + 1) (.obj acc false) (.Comma :: .CloseBrace :: rest) =
        Parser.parseF (f + 1) (.obj acc false) (.CloseBrace :: rest)) ∧
    (∀ (f : Nat) (acc : List Node) (rest : List TokenKind),
      Parser.parseF (f + 1) (.arr acc false) (.Comma :: .CloseBracket :: rest) =
        Parser.parseF (f + 1) (.arr acc false) (.CloseBracket :: rest)) ∧
    (∀ (f : Nat) (acc : List (String × Node)) (rest : List TokenKind),
      Parser.parseF (f + 1) (.obj acc true) (.Comma :: rest) =
        some (.error (.UnexpectedToken "found a Token that cannot be a key"))) ∧
    (∀ (f : Nat) (acc : List Node) (rest : List TokenKind),
      Parser.parseF (f + 1) (.arr acc true) (.Comma :: rest) =
        some (.error (.UnexpectedToken "a token that cannot start a value"))) ∧
    Lib.to_json_string "\x7b\"a\":1,\x7d" = Lib.to_json_string "\x7b\"a\":1\x7d" ∧
    Lib.to_json_string "\x7b,\"a\":1\x7d" =
      .error (.inr (.UnexpectedToken "found a Token that cannot be a key")) :=
  ⟨fun _ _ _ => rfl, fun _ _ _ => rfl, fun _ _ _ => rfl, fun _ _ _ => rfl,
    rfl, rfl⟩

/-- Witness for C6 at the surrogate-pair example `"😀"`
(scenario 6): the stored text is the 12-character escape sequence. -/
theorem C6_string_escapes_verbatim_witness :
    Lexer.scan_string_token ("\\ud83d\\ude00".data ++ '"' :: []) 1 =
      .ok (.StringValue "\\ud83d\\ude00", [], 14) ∧
    (Node.StringValue "\\ud83d\\ude00").to_json_string = "\"\\ud83d\\ude00\"" ∧
    ("\\ud83d\\ude00" : String).length = 12 := by
  refine ⟨?_, C6_string_escapes_verbatim.2 "\\ud83d\\ude00", by decide⟩
  rw [C6_string_escapes_verbatim.1 "\\ud83d\\ude00".data [] 1
    (StrUnits.uni ['d', '8', '3', 'd'] _ (by decide) (Or.inl (by decide))
      (StrUnits.uni ['d', 'e', '0', '0'] [] (by decide) (Or.inl (by decide)) .nil))]
  rfl

/-- C9: `to_json_string` is total and never fails — for every finite `Node`
tree (all six variants, any nesting depth), the serializing computation
terminates and yields a text string, with no error outcome: the fueled
evaluator of the recursion succeeds with `some` whenever the fuel covers
the tree size. -/
theorem C9_serializer_total (v : Node) (f : Nat) (h : v.size + 1 ≤ f) :
    jsonListF f [v] = some [v.to_json_string] := by
  have hs : sizeItems [v] = v.size + 1 := rfl
  rw [jsonListF_eq (sizeItems [v]) [v] f (le_refl _) (by omega)]
  rfl

/-- Witness for C9 at a nested object/array tree with fuel 20. -/
theorem C9_serializer_total_witness :
    jsonListF 20 [Node.Object [("a", Node.Array [Node.Number "1", Node.Null]),
        ("b", Node.Boolean true)]] =
      some [(Node.Object [("a", Node.Array [Node.Number "1", Node.Null]),
        ("b", Node.Boolean true)]).to_json_string] :=
  C9_serializer_total _ 20 (by decide)

/-- C10: the member list of an `Object` built by any insertion sequence is
strictly sorted by key (the `BTreeMap` iteration order), and two objects
built from insertion sequences with equal key-to-value mapping serialize
to the identical text, independent of insertion order. -/
theorem C10_object_key_order (l1 l2 : List (String × Node))
    (h : ∀ k, Parser.lookupMember (Parser.insertAll l1) k
            = Parser.lookupMember (Parser.insertAll l2) k) :
    (Parser.insertAll l1).Pairwise (fun a b => Parser.strLt a.1 b.1 = true) ∧
    (Node.Object (Parser.insertAll l1)).to_json_string
      = (Node.Object (Parser.insertAll l2)).to_json_string := by
  have he := Parser.sorted_lookup_ext _ _ (Parser.insertAll_pairwise l1)
    (Parser.insertAll_pairwise l2) h
  exact ⟨Parser.insertAll_pairwise l1, by rw [he]⟩

/-- Witness for C10: inserting `b` then `a` versus `a` then `b` yields the
same sorted map and the same serialized text. -/
theorem C10_object_key_order_witness :
    (Parser.insertAll [("b", Node.Number "2"), ("a", Node.Number "1")]).Pairwise
      (fun a b => Parser.strLt a.1 b.1 = true) ∧
    (Node.Object (Parser.insertAll
        [("b", Node.Number "2"), ("a", Node.Number "1")])).to_json_string
      = (Node.Object (Parser.insertAll
        [("a", Node.Number "1"), ("b", Node.Number "2")])).to_json_string :=
  C10_object_key_order [("b", Node.Number "2"), ("a", Node.Number "1")]
    [("a", Node.Number "1"), ("b", Node.Number "2")] (fun _ => rfl)

/-- C8 (counterexample): the pipeline's output is not always a fixed point.
`"1x"` is itself a compact, comment-free serializer output (of the value
`Number "1x"`); the pipeline accepts it with output `"1"`, but re-feeding
`"1"` fails in the number scanner at end of input instead of returning
`.ok "1"`. -/
theorem C8_idempotence_counterexample :
    (Node.Number "1x").to_json_string = "1x" ∧
    Lib.to_json_string "1x" = .ok "1" ∧
    Lib.to_json_string "1" = .error (.inl .NotExistTerminalSymbol) :=
  ⟨rfl, rfl, rfl⟩

/-- C8 (amended): for every input text on which the tokenize+parse+serialize
pipeline succeeds and whose parsed value is not a bare top-level number
literal, the pipeline is a fixed point: the output text `s` re-feeds through
the pipeline to `.ok s` again.  (A bare number's serialization ends
mid-number-scan at end of input and re-lexing fails.) -/
theorem C8_pipeline_idempotent (t : String) (toks : List TokenKind) (v : Node)
    (htok : Lexer.tokenize t.data = .ok toks)
    (hpar : Parser.parse toks = .ok v)
    (hnum : isBareNumber v = false) :
    Lib.to_json_string t = .ok v.to_json_string ∧
    Lib.to_json_string v.to_json_string = .ok v.to_json_string := by
  constructor
  · rw [Lib.to_json_string, htok]
    dsimp only
    rw [hpar]
  · have hwf : WfNode v :=
      Parser.parse_wf hpar (fun tk htk =>
        Lexer.tokenizeFrom_wf t.data.length t.data 0 toks le_rfl htok tk htk)
    obtain ⟨T, hC, hA, hB⟩ := wf_tokSpec hwf
    have hsep : numberSepOk v [] := by
      cases v <;> first | trivial | exact Bool.noConfusion hnum
    obtain ⟨i', heq⟩ := hA [] 0 hsep
    rw [List.append_nil, Lexer.tokenizeFrom_nil] at heq
    have htok2 : Lexer.tokenize (v.to_json_string).data = .ok T := by
      rw [Lexer.tokenize, heq]
      simp [Except.map]
    have hpar2 : Parser.parse T = .ok v := Parser.parse_tokSpec ⟨hC, hA, hB⟩
    rw [Lib.to_json_string, htok2]
    dsimp only
    rw [hpar2]

/-- Witness for C8 at the array document `[1,true]`. -/
theorem C8_pipeline_idempotent_witness :
    Lib.to_json_string "[1,true]" =
      .ok (Node.Array [Node.Number "1", Node.Boolean true]).to_json_string ∧
    Lib.to_json_string (Node.Array [Node.Number "1", Node.Boolean true]).to_json_string =
      .ok (Node.Array [Node.Number "1", Node.Boolean true]).to_json_string :=
  C8_pipeline_idempotent "[1,true]"
    [.OpenBracket, .Number "1", .Comma, .Boolean true, .CloseBracket]
    (Node.Array [Node.Number "1", Node.Boolean true]) rfl rfl rfl

end Jsonc
